import Mathlib

/-!
Verification of the ATN (Agent Trust Node) core against its specification.

This development shallowly embeds the TypeScript sources of the ATN
repository:

* `packages/core/src/canonical.ts` — canonical JSON serialization
  (`canonicalize`, `parseCanonical`);
* `packages/core/src/hash.ts` — SHA-256 hashing and hash chaining
  (`sha256`, `hashCanonical`, `chainHash`, `verifyChain`);
* `packages/core/src/statemachine.ts` — the escrow state machine
  (`VALID_TRANSITIONS`, `isValidTransition`, `getNextStates`,
  `isTerminal`, `validateTransition`);
* `packages/core/src/crypto.ts` — signature verification plumbing and
  identifier derivation (`verify`, `deriveAgentId`);
* `apps/trust-node/src/db.ts` — the in-memory store (`EventLogEntry`,
  `getLastEventHashForJob`, `Agent`, `insertAgent`,
  `getAgentByPublicKey`);
* `apps/trust-node/src/routes-agents.ts` — the agent registration
  handler (`registerAgent`).

Modelling conventions:

* Structured JSON values are the inductive type `Jv`; JavaScript
  numbers are modelled as exact integers (`Int`), following the spec's
  recommendation to restrict payload numerics to integers.
* `json-stable-stringify`'s key comparator (`localeCompare`) is backed
  by an external ICU collator with no source in this repository. The
  serializer is therefore modelled twice: `canonicalizeWith` takes the
  three-way comparator as a parameter and sorts keys with a stable
  sort (matching `Array.prototype.sort`), and `canonicalize`
  instantiates it at the antisymmetric code-point comparator
  (`canonicalizeWith_byteCmp`). The instances differ exactly when
  distinct keys collate equal — ICU ties such as the NFC/NFD
  spellings of one character — and that divergence is analysed rather
  than assumed away (see the C6 theorems).
* Node's `createHash('sha256')` is implemented in full (FIPS 180-4)
  over UTF-8 bytes, and validated against the repository's own test
  vector (`sha256 "" = "e3b0…"`).
* `JSON.parse` is modelled as a recursive-descent parser of the JSON
  grammar restricted to what `canonicalize` can emit (integer
  numerals, no insignificant whitespace).
* The Ed25519 core of `tweetnacl` is an external audited library with
  no source in this repository; functions that call it are
  parameterized by the core verification function, so theorems about
  them hold for every possible core.
-/

namespace ATN

/-- Structured JSON values: the data canonicalized, hashed and signed by
the ATN core. Object fields are kept as an association list in input
order; `canonicalize` is responsible for sorting keys. -/
inductive Jv where
  | null : Jv
  | bool (b : Bool) : Jv
  | num (n : Int) : Jv
  | str (s : String) : Jv
  | arr (xs : List Jv) : Jv
  | obj (kvs : List (String × Jv)) : Jv

/-- Insert a key-value pair into a list sorted by key: the insertion
step of the key sort performed by json-stable-stringify's `cmp` option,
at the antisymmetric code-point order on keys (`insertPairWith` below
keeps the comparator abstract; this is its `byteCmp` instance, see
`insertPairWith_byteCmp`). -/
def insertPair (p : String × Jv) : List (String × Jv) → List (String × Jv)
  | [] => [p]
  | q :: qs => if p.1 ≤ q.1 then p :: q :: qs else q :: insertPair p qs

/-- Sort an association list by key under the code-point order,
modelling json-stable-stringify's key sort at an antisymmetric
comparator. Object keys are distinct, so under such a comparator any
sorting algorithm yields the same result; insertion sort is used
here. -/
def sortPairs : List (String × Jv) → List (String × Jv)
  | [] => []
  | p :: ps => insertPair p (sortPairs ps)

/-- Decimal digits of a natural number, most significant first. -/
def natToChars (n : Nat) : List Char :=
  if n < 10 then [Nat.digitChar n]
  else natToChars (n / 10) ++ [Nat.digitChar (n % 10)]
termination_by n
decreasing_by exact Nat.div_lt_self (by omega) (by omega)

/-- JSON rendering of an integer (JS renders safe integers without a
decimal point or exponent). -/
def renderNum (i : Int) : List Char :=
  if i < 0 then '-' :: natToChars i.natAbs else natToChars i.toNat

/-- JSON string escaping of one character, as performed by
`JSON.stringify`: quote, backslash and control characters are escaped,
everything else is emitted literally. -/
def escapeChar (c : Char) : List Char :=
  if c = '"' then ['\\', '"']
  else if c = '\\' then ['\\', '\\']
  else if c = Char.ofNat 8 then ['\\', 'b']
  else if c = Char.ofNat 9 then ['\\', 't']
  else if c = Char.ofNat 10 then ['\\', 'n']
  else if c = Char.ofNat 12 then ['\\', 'f']
  else if c = Char.ofNat 13 then ['\\', 'r']
  else if c.toNat < 32 then
    ['\\', 'u', '0', '0', Nat.digitChar (c.toNat / 16), Nat.digitChar (c.toNat % 16)]
  else [c]

/-- JSON string escaping of a character sequence. -/
def escapeStr : List Char → List Char
  | [] => []
  | c :: cs => escapeChar c ++ escapeStr cs

theorem sizeOf_insertPair (p : String × Jv) (l : List (String × Jv)) :
    sizeOf (insertPair p l) = sizeOf (p :: l) := by
  induction l with
  | nil => rfl
  | cons q qs ih =>
    simp only [insertPair]
    split
    · rfl
    · simp only [List.cons.sizeOf_spec] at ih ⊢
      omega

theorem sizeOf_sortPairs (l : List (String × Jv)) :
    sizeOf (sortPairs l) = sizeOf l := by
  induction l with
  | nil => rfl
  | cons p ps ih =>
    simp only [sortPairs, sizeOf_insertPair, List.cons.sizeOf_spec]
    omega

/-- The characters of the `null` keyword. -/
def litNull : List Char := ['n', 'u', 'l', 'l']

/-- The characters of the `true` keyword. -/
def litTrue : List Char := ['t', 'r', 'u', 'e']

/-- The characters of the `false` keyword. -/
def litFalse : List Char := ['f', 'a', 'l', 's', 'e']

mutual

/-- Canonical JSON rendering of a value: keys sorted, no whitespace,
fixed escaping — the byte-level contract of `canonicalize` in
`canonical.ts`. -/
def render : Jv → List Char
  | .null => litNull
  | .bool true => litTrue
  | .bool false => litFalse
  | .num i => renderNum i
  | .str s => '"' :: escapeStr s.data ++ ['"']
  | .arr xs => '[' :: renderElems xs ++ [']']
  | .obj kvs => '{' :: renderMembers (sortPairs kvs) ++ ['}']
termination_by x => sizeOf x
decreasing_by
  all_goals simp_wf
  all_goals simp_arith [sizeOf_sortPairs]

/-- Comma-separated rendering of array elements (input order is
preserved for arrays). -/
def renderElems : List Jv → List Char
  | [] => []
  | [x] => render x
  | x :: xs => render x ++ ',' :: renderElems xs
termination_by xs => sizeOf xs
decreasing_by all_goals simp_wf <;> simp_arith

/-- Comma-separated rendering of already-sorted object members. -/
def renderMembers : List (String × Jv) → List Char
  | [] => []
  | [p] => '"' :: escapeStr p.1.data ++ '"' :: ':' :: render p.2
  | p :: ps => ('"' :: escapeStr p.1.data ++ '"' :: ':' :: render p.2) ++ ',' :: renderMembers ps
termination_by ps => sizeOf ps
decreasing_by
  all_goals simp_wf
  all_goals obtain ⟨k, v⟩ := p
  all_goals simp_arith

end

/-- `canonicalize` from `canonical.ts`: deterministic JSON
serialization with keys sorted by a fixed total order and no extra
whitespace. -/
def canonicalize (x : Jv) : String := String.mk (render x)

/-- Comparator-parameterized stable insertion of a member into a sorted
member list. The source sorts keys with `a.key.localeCompare(b.key)`, a
three-way comparator whose collation tables live in an external ICU
library, so the sort is modelled with the comparator as a parameter.
The inserted member is earlier in input order than every member of the
list, so placing it before any member whose key compares *equal* is
exactly the stability guarantee of `Array.prototype.sort`. -/
def insertPairWith (cmp : String → String → Ordering) (p : String × Jv) :
    List (String × Jv) → List (String × Jv)
  | [] => [p]
  | q :: qs =>
    if cmp p.1 q.1 ≠ .gt then p :: q :: qs else q :: insertPairWith cmp p qs

/-- Comparator-parameterized stable key sort: json-stable-stringify's
key sort with an arbitrary comparator. At a comparator that never
returns `eq` on distinct keys this coincides with `sortPairs`
(`sortPairsWith_byteCmp`); a comparator with ties exposes the
order-dependence of the stable sort. -/
def sortPairsWith (cmp : String → String → Ordering) :
    List (String × Jv) → List (String × Jv)
  | [] => []
  | p :: ps => insertPairWith cmp p (sortPairsWith cmp ps)

theorem sizeOf_insertPairWith (cmp : String → String → Ordering)
    (p : String × Jv) (l : List (String × Jv)) :
    sizeOf (insertPairWith cmp p l) = sizeOf (p :: l) := by
  induction l with
  | nil => rfl
  | cons q qs ih =>
    simp only [insertPairWith]
    split
    · rfl
    · simp only [List.cons.sizeOf_spec] at ih ⊢
      omega

theorem sizeOf_sortPairsWith (cmp : String → String → Ordering)
    (l : List (String × Jv)) : sizeOf (sortPairsWith cmp l) = sizeOf l := by
  induction l with
  | nil => rfl
  | cons p ps ih =>
    simp only [sortPairsWith, sizeOf_insertPairWith, List.cons.sizeOf_spec]
    omega

mutual

/-- The serializer of `canonical.ts` with the key comparator as a
parameter: identical to `render` except that object members are sorted
with `sortPairsWith cmp` instead of the fixed antisymmetric order. -/
def renderWith (cmp : String → String → Ordering) : Jv → List Char
  | .null => litNull
  | .bool true => litTrue
  | .bool false => litFalse
  | .num i => renderNum i
  | .str s => '"' :: escapeStr s.data ++ ['"']
  | .arr xs => '[' :: renderElemsWith cmp xs ++ [']']
  | .obj kvs => '{' :: renderMembersWith cmp (sortPairsWith cmp kvs) ++ ['}']
termination_by x => sizeOf x
decreasing_by
  all_goals simp_wf
  all_goals simp_arith [sizeOf_sortPairsWith]

/-- Array elements under the parameterized serializer. -/
def renderElemsWith (cmp : String → String → Ordering) : List Jv → List Char
  | [] => []
  | [x] => renderWith cmp x
  | x :: xs => renderWith cmp x ++ ',' :: renderElemsWith cmp xs
termination_by xs => sizeOf xs
decreasing_by all_goals simp_wf <;> simp_arith

/-- Object members under the parameterized serializer. -/
def renderMembersWith (cmp : String → String → Ordering) :
    List (String × Jv) → List Char
  | [] => []
  | [p] => '"' :: escapeStr p.1.data ++ '"' :: ':' :: renderWith cmp p.2
  | p :: ps =>
    ('"' :: escapeStr p.1.data ++ '"' :: ':' :: renderWith cmp p.2) ++
      ',' :: renderMembersWith cmp ps
termination_by ps => sizeOf ps
decreasing_by
  all_goals simp_wf
  all_goals obtain ⟨k, v⟩ := p
  all_goals simp_arith

end

/-- `canonicalize` with the key comparator as a parameter. `canonicalize`
itself is the instance at the antisymmetric code-point comparator
(`canonicalizeWith_byteCmp`). -/
def canonicalizeWith (cmp : String → String → Ordering) (x : Jv) : String :=
  String.mk (renderWith cmp x)

/-- Three-way comparison by code-point order: an antisymmetric
comparator — it returns `eq` only on identical strings. -/
def byteCmp (a b : String) : Ordering :=
  if a < b then .lt else if b < a then .gt else .eq

/-- The NFC spelling of the letter ä: the single scalar U+00E4. -/
def nfcKey : String := "\u00E4"

/-- The NFD spelling of the same letter: 'a' followed by the combining
diaeresis U+0308. A different string than `nfcKey`. -/
def nfdKey : String := "a\u0308"

/-- A comparator exhibiting the documented behavior of the ICU collator
behind `String.prototype.localeCompare` (an external library with no
source in this repository): the collator normalizes before comparing, so
the NFC and NFD spellings of ä compare equal although the strings
differ. On every other pair this comparator falls back to code-point
order. -/
def icuTieCmp (a b : String) : Ordering :=
  if (a = nfcKey ∨ a = nfdKey) ∧ (b = nfcKey ∨ b = nfdKey) then .eq
  else byteCmp a b

/-- Decimal digit test (JSON grammar `0`–`9`). -/
def isDigitC (c : Char) : Bool := 48 ≤ c.toNat && c.toNat ≤ 57

/-- Value of a hexadecimal digit character, if any. -/
def hexVal (c : Char) : Option Nat :=
  if '0' ≤ c ∧ c ≤ '9' then some (c.toNat - 48)
  else if 'a' ≤ c ∧ c ≤ 'f' then some (c.toNat - 87)
  else if 'A' ≤ c ∧ c ≤ 'F' then some (c.toNat - 55)
  else none

/-- Unescaping of a single-character JSON escape sequence. -/
def unescapeChar (e : Char) : Option Char :=
  if e = '"' then some '"'
  else if e = '\\' then some '\\'
  else if e = '/' then some '/'
  else if e = 'b' then some (Char.ofNat 8)
  else if e = 'f' then some (Char.ofNat 12)
  else if e = 'n' then some (Char.ofNat 10)
  else if e = 'r' then some (Char.ofNat 13)
  else if e = 't' then some (Char.ofNat 9)
  else none

/-- Parse the body of a JSON string after the opening quote; returns
the decoded characters and the input remaining after the closing
quote. -/
def parseStringBody : List Char → Option (List Char × List Char)
  | [] => none
  | c :: r =>
    if c = '"' then some ([], r)
    else if c = '\\' then
      match r with
      | [] => none
      | e :: r' =>
        if e = 'u' then
          match r' with
          | h1 :: h2 :: h3 :: h4 :: r'' =>
            match hexVal h1, hexVal h2, hexVal h3, hexVal h4 with
            | some a, some b, some c2, some d =>
              let code := ((a * 16 + b) * 16 + c2) * 16 + d
              if code.isValidChar then
                (parseStringBody r'').map (fun p => (Char.ofNat code :: p.1, p.2))
              else none
            | _, _, _, _ => none
          | _ => none
        else
          match unescapeChar e with
          | some ch => (parseStringBody r').map (fun p => (ch :: p.1, p.2))
          | none => none
    else (parseStringBody r).map (fun p => (c :: p.1, p.2))
termination_by l => l.length
decreasing_by all_goals simp_arith

/-- Accumulate decimal digit characters into a natural number. -/
def digitsToNat (acc : Nat) : List Char → Nat
  | [] => acc
  | c :: cs => digitsToNat (acc * 10 + (c.toNat - 48)) cs

/-- Parse a nonempty run of decimal digits. -/
def parseNatNum (l : List Char) : Option (Nat × List Char) :=
  let ds := l.takeWhile isDigitC
  if ds.isEmpty then none
  else some (digitsToNat 0 ds, l.dropWhile isDigitC)

mutual

/-- Recursive-descent parser for a single JSON value, modelling
`JSON.parse` on the fragment of the grammar that `canonicalize` emits
(integer numerals, no insignificant whitespace). The fuel argument
bounds the nesting depth. -/
def parseVal : Nat → List Char → Option (Jv × List Char)
  | 0, _ => none
  | _, [] => none
  | fuel + 1, c :: r =>
    if c = 'n' then
      if r.take 3 = ['u', 'l', 'l'] then some (.null, r.drop 3) else none
    else if c = 't' then
      if r.take 3 = ['r', 'u', 'e'] then some (.bool true, r.drop 3) else none
    else if c = 'f' then
      if r.take 4 = ['a', 'l', 's', 'e'] then some (.bool false, r.drop 4) else none
    else if c = '"' then
      (parseStringBody r).map (fun p => (.str (String.mk p.1), p.2))
    else if c = '[' then
      match r with
      | [] => none
      | d :: r' => if d = ']' then some (.arr [], r') else
          (parseElems fuel r).map (fun p => (.arr p.1, p.2))
    else if c = '{' then
      match r with
      | [] => none
      | d :: r' => if d = '}' then some (.obj [], r') else
          (parseMembers fuel r).map (fun p => (.obj p.1, p.2))
    else if c = '-' then
      (parseNatNum r).map (fun p => (.num (-(p.1 : Int)), p.2))
    else if isDigitC c then
      (parseNatNum (c :: r)).map (fun p => (.num (p.1 : Int), p.2))
    else none

/-- Parse one or more comma-separated array elements and the closing
bracket. -/
def parseElems : Nat → List Char → Option (List Jv × List Char)
  | 0, _ => none
  | fuel + 1, l =>
    match parseVal fuel l with
    | none => none
    | some (x, rest) =>
      match rest with
      | [] => none
      | sep :: rest' =>
        if sep = ',' then (parseElems fuel rest').map (fun p => (x :: p.1, p.2))
        else if sep = ']' then some ([x], rest')
        else none

/-- Parse one or more comma-separated object members and the closing
brace. -/
def parseMembers : Nat → List Char → Option (List (String × Jv) × List Char)
  | 0, _ => none
  | fuel + 1, l =>
    match l with
    | [] => none
    | c :: r =>
      if c = '"' then
        match parseStringBody r with
        | none => none
        | some (kcs, rest) =>
          match rest with
          | [] => none
          | c2 :: rest' =>
            if c2 = ':' then
              match parseVal fuel rest' with
              | none => none
              | some (v, rest2) =>
                match rest2 with
                | [] => none
                | sep :: rest3 =>
                  if sep = ',' then
                    (parseMembers fuel rest3).map (fun p => ((String.mk kcs, v) :: p.1, p.2))
                  else if sep = '}' then some ([(String.mk kcs, v)], rest3)
                  else none
            else none
      else none

end

/-- `parseCanonical` from `canonical.ts` (`JSON.parse`): parse a whole
canonical JSON document, rejecting trailing input. -/
def parseCanonical (s : String) : Option Jv :=
  match parseVal (s.length + 1) s.data with
  | some (v, []) => some v
  | _ => none

/-- UTF-8 encoding of one Unicode scalar value. -/
def utf8Char (c : Char) : List Nat :=
  let n := c.toNat
  if n < 128 then [n]
  else if n < 2048 then [192 ||| (n >>> 6), 128 ||| (n &&& 63)]
  else if n < 65536 then
    [224 ||| (n >>> 12), 128 ||| ((n >>> 6) &&& 63), 128 ||| (n &&& 63)]
  else
    [240 ||| (n >>> 18), 128 ||| ((n >>> 12) &&& 63), 128 ||| ((n >>> 6) &&& 63), 128 ||| (n &&& 63)]

/-- UTF-8 bytes of a string (how Node hashes string input). -/
def utf8Bytes (s : String) : List Nat :=
  s.data.foldr (fun c acc => utf8Char c ++ acc) []

/-- Truncation to a 32-bit word. -/
def w32 (n : Nat) : Nat := n % 4294967296

/-- 32-bit right rotation. -/
def rotr (n x : Nat) : Nat := w32 ((x >>> n) ||| (x <<< (32 - n)))

/-- SHA-256 Σ₀. -/
def bSig0 (x : Nat) : Nat := (rotr 2 x) ^^^ (rotr 13 x) ^^^ (rotr 22 x)

/-- SHA-256 Σ₁. -/
def bSig1 (x : Nat) : Nat := (rotr 6 x) ^^^ (rotr 11 x) ^^^ (rotr 25 x)

/-- SHA-256 σ₀. -/
def sSig0 (x : Nat) : Nat := (rotr 7 x) ^^^ (rotr 18 x) ^^^ (x >>> 3)

/-- SHA-256 σ₁. -/
def sSig1 (x : Nat) : Nat := (rotr 17 x) ^^^ (rotr 19 x) ^^^ (x >>> 10)

/-- SHA-256 Ch function (¬x realized as xor with the 32-bit mask). -/
def chFun (x y z : Nat) : Nat := (x &&& y) ^^^ ((x ^^^ 4294967295) &&& z)

/-- SHA-256 Maj function. -/
def majFun (x y z : Nat) : Nat := (x &&& y) ^^^ (x &&& z) ^^^ (y &&& z)

/-- SHA-256 round constants. -/
def kConst : List Nat :=
  [1116352408, 1899447441, 3049323471, 3921009573, 961987163, 1508970993,
   2453635748, 2870763221, 3624381080, 310598401, 607225278, 1426881987,
   1925078388, 2162078206, 2614888103, 3248222580, 3835390401, 4022224774,
   264347078, 604807628, 770255983, 1249150122, 1555081692, 1996064986,
   2554220882, 2821834349, 2952996808, 3210313671, 3336571891, 3584528711,
   113926993, 338241895, 666307205, 773529912, 1294757372, 1396182291,
   1695183700, 1986661051, 2177026350, 2456956037, 2730485921, 2820302411,
   3259730800, 3345764771, 3516065817, 3600352804, 4094571909, 275423344,
   430227734, 506948616, 659060556, 883997877, 958139571, 1322822218,
   1537002063, 1747873779, 1955562222, 2024104815, 2227730452, 2361852424,
   2428436474, 2756734187, 3204031479, 3329325298]

/-- SHA-256 initial hash state. -/
def h0 : List Nat :=
  [1779033703, 3144134277, 1013904242, 2773480762,
   1359893119, 2600822924, 528734635, 1541459225]

/-- Big-endian 8-byte encoding of a length in bits. -/
def be64 (n : Nat) : List Nat :=
  [(n >>> 56) &&& 255, (n >>> 48) &&& 255, (n >>> 40) &&& 255, (n >>> 32) &&& 255,
   (n >>> 24) &&& 255, (n >>> 16) &&& 255, (n >>> 8) &&& 255, n &&& 255]

/-- SHA-256 message padding: append 0x80, zero bytes up to 56 mod 64,
then the bit length in 8 big-endian bytes. -/
def padMsg (m : List Nat) : List Nat :=
  m ++ 128 :: List.replicate ((119 - m.length % 64) % 64) 0 ++ be64 (8 * m.length)

/-- Block splitting worker; the fuel argument makes the recursion
structural (any fuel at least the list length is enough). -/
def chunks64Go : Nat → List Nat → List (List Nat)
  | 0, _ => []
  | _ + 1, [] => []
  | fuel + 1, l => l.take 64 :: chunks64Go fuel (l.drop 64)

/-- Split a byte list into 64-byte blocks. -/
def chunks64 (l : List Nat) : List (List Nat) := chunks64Go l.length l

/-- The 16 big-endian 32-bit words of a 64-byte block. -/
def wordsOfBlock (b : List Nat) : List Nat :=
  (List.range 16).map (fun i =>
    ((b.getD (4 * i) 0) <<< 24) + ((b.getD (4 * i + 1) 0) <<< 16) +
    ((b.getD (4 * i + 2) 0) <<< 8) + b.getD (4 * i + 3) 0)

/-- Extend the 16 message-schedule words to 64. -/
def extendSchedule (w : List Nat) : List Nat :=
  (List.range 48).foldl (fun acc _ =>
    let n := acc.length
    acc ++ [w32 (sSig1 (acc.getD (n - 2) 0) + acc.getD (n - 7) 0 +
                 sSig0 (acc.getD (n - 15) 0) + acc.getD (n - 16) 0)]) w

/-- SHA-256 compression of one 64-byte block into the hash state. -/
def compressBlock (hs : List Nat) (block : List Nat) : List Nat :=
  let w := extendSchedule (wordsOfBlock block)
  let final := (List.range 64).foldl (fun st i =>
    let a := st.getD 0 0
    let b := st.getD 1 0
    let c := st.getD 2 0
    let d := st.getD 3 0
    let e := st.getD 4 0
    let f := st.getD 5 0
    let g := st.getD 6 0
    let h := st.getD 7 0
    let t1 := w32 (h + bSig1 e + chFun e f g + kConst.getD i 0 + w.getD i 0)
    let t2 := w32 (bSig0 a + majFun a b c)
    [w32 (t1 + t2), a, b, c, w32 (d + t1), e, f, g]) hs
  (List.range 8).map (fun i => w32 (hs.getD i 0 + final.getD i 0))

/-- SHA-256 digest bytes of a byte message. -/
def sha256bytes (m : List Nat) : List Nat :=
  let hs := (chunks64 (padMsg m)).foldl compressBlock h0
  hs.foldr (fun wd acc =>
    ((wd >>> 24) &&& 255) :: ((wd >>> 16) &&& 255) :: ((wd >>> 8) &&& 255) :: (wd &&& 255) :: acc) []

/-- Lowercase hexadecimal rendering of one byte. -/
def hexByte (b : Nat) : List Char := [Nat.digitChar (b / 16), Nat.digitChar (b % 16)]

/-- `sha256` from `hash.ts`: hex-encoded SHA-256 of the UTF-8 bytes of
a string (Node `createHash('sha256')`, implemented per FIPS 180-4). -/
def sha256 (s : String) : String :=
  String.mk ((sha256bytes (utf8Bytes s)).foldr (fun b acc => hexByte b ++ acc) [])

/-- `hashCanonical` from `hash.ts`: SHA-256 of the canonical JSON of an
object. -/
def hashCanonical (x : Jv) : String := sha256 (canonicalize x)

/-- `chainHash` from `hash.ts`: hash of the object
`{previousHash, payload}` in canonical form. -/
def chainHash (previousHash : String) (currentPayload : Jv) : String :=
  hashCanonical (.obj [("previousHash", .str previousHash), ("payload", currentPayload)])

/-- `verifyChain` from `hash.ts`: recompute the chain hash of a single
entry from its `previousHash` and payload and compare it with the
stored hash. -/
def verifyChain (previousHash : String) (currentPayload : Jv) (expectedHash : String) : Bool :=
  chainHash previousHash currentPayload == expectedHash

/-- `testVectors` from `hash.ts`: the repository's own SHA-256 test
vector. -/
def testVectors : List (String × String) :=
  [("", "e3b0c44298fc1c149afbf4c8996fb92427ae41e4649b934ca495991b7852b855")]

/-- `verifyTestVectors` from `hash.ts`. -/
def verifyTestVectors : Bool :=
  testVectors.all (fun p => sha256 p.1 == p.2)

/-- `JobState` from `types.ts`: the escrow lifecycle states. -/
inductive JobState where
  | CREATED : JobState
  | FUNDED : JobState
  | PROVED : JobState
  | ATTESTED : JobState
  | SETTLED : JobState
deriving DecidableEq, BEq, Fintype

/-- The string name of a state (used in diagnostic messages). -/
def JobState.name : JobState → String
  | .CREATED => "CREATED"
  | .FUNDED => "FUNDED"
  | .PROVED => "PROVED"
  | .ATTESTED => "ATTESTED"
  | .SETTLED => "SETTLED"

/-- `VALID_TRANSITIONS` from `statemachine.ts`: the map from each state
to its allowed next states. -/
def VALID_TRANSITIONS : JobState → List JobState
  | .CREATED => [.FUNDED]
  | .FUNDED => [.PROVED]
  | .PROVED => [.ATTESTED]
  | .ATTESTED => [.SETTLED]
  | .SETTLED => []

/-- `isValidTransition` from `statemachine.ts`. -/
def isValidTransition (from_ to_ : JobState) : Bool :=
  (VALID_TRANSITIONS from_).contains to_

/-- `getNextStates` from `statemachine.ts`. -/
def getNextStates (state : JobState) : List JobState :=
  VALID_TRANSITIONS state

/-- `isTerminal` from `statemachine.ts`. -/
def isTerminal (state : JobState) : Bool :=
  (getNextStates state).length == 0

/-- The result record of `validateTransition`. -/
structure ValidationResult where
  valid : Bool
  reason : Option String
deriving DecidableEq

/-- JavaScript `Array.prototype.join(', ')`. -/
def joinComma : List String → String
  | [] => ""
  | [s] => s
  | s :: ss => s ++ ", " ++ joinComma ss

/-- `validateTransition` from `statemachine.ts`: validity plus a
diagnostic reason naming the allowed next states. -/
def validateTransition (from_ to_ : JobState) : ValidationResult :=
  if ¬ isValidTransition from_ to_ then
    let allowed := getNextStates from_
    let allowedStr := if allowed.isEmpty then "none (terminal state)" else joinComma (allowed.map JobState.name)
    { valid := false,
      reason := some ("Invalid transition from " ++ from_.name ++ " to " ++ to_.name ++
                      ". Allowed states: " ++ allowedStr) }
  else { valid := true, reason := none }

/-- The base64 alphabet value of a character, if it is in the
alphabet. -/
def b64Val (c : Char) : Option Nat :=
  if 'A' ≤ c ∧ c ≤ 'Z' then some (c.toNat - 65)
  else if 'a' ≤ c ∧ c ≤ 'z' then some (c.toNat - 71)
  else if '0' ≤ c ∧ c ≤ '9' then some (c.toNat + 4)
  else if c = '+' then some 62
  else if c = '/' then some 63
  else none

/-- Decode a run of 6-bit groups into bytes, dropping the final
incomplete byte as base64 decoding does. -/
def b64Assemble : List Nat → List Nat
  | a :: b :: c :: d :: rest =>
    ((a <<< 2) ||| (b >>> 4)) :: (((b &&& 15) <<< 4) ||| (c >>> 2)) ::
      (((c &&& 3) <<< 6) ||| d) :: b64Assemble rest
  | [a, b, c] => [(a <<< 2) ||| (b >>> 4), ((b &&& 15) <<< 4) ||| (c >>> 2)]
  | [a, b] => [(a <<< 2) ||| (b >>> 4)]
  | _ => []

/-- Node `Buffer.from(s, 'base64')`: lenient base64 decoding that
ignores characters outside the alphabet (including padding) and drops a
trailing incomplete byte. -/
def b64decode (s : String) : List Nat :=
  b64Assemble (s.data.filterMap b64Val)

/-- `nacl.sign.detached.verify` from tweetnacl: the library first
checks the signature and key sizes (throwing on a mismatch, modelled by
`Except.error`) and then runs the Ed25519 verification core. The core
itself has no source in this repository, so it is a parameter; every
theorem below holds for every core. -/
def naclVerify (core : List Nat → List Nat → List Nat → Bool)
    (message sig pubkey : List Nat) : Except String Bool :=
  if sig.length ≠ 64 then .error "bad signature size"
  else if pubkey.length ≠ 32 then .error "bad public key size"
  else .ok (core message sig pubkey)

/-- `verify` from `crypto.ts`: decode the base64 signature and public
key, call the tweetnacl verifier, and turn any thrown error into
`false` (the `try`/`catch` in the source). -/
def verify (core : List Nat → List Nat → List Nat → Bool)
    (message : List Nat) (signature publicKey : String) : Bool :=
  match naclVerify core message (b64decode signature) (b64decode publicKey) with
  | .ok b => b
  | .error _ => false

/-- `deriveAgentId` from `crypto.ts`: hash the base64 public-key string
with SHA-256 and keep the first 16 hex characters after an `agent_`
prefix. -/
def deriveAgentId (publicKey : String) : String :=
  "agent_" ++ (sha256 publicKey).take 16

/-- `EventLogEntry` from `apps/trust-node/src/db.ts`: the persisted
event record. Note that it stores the entry's `previousHash` but no
event hash of its own. -/
structure EventLogEntry where
  id : Nat
  jobId : String
  eventType : String
  actor : String
  previousHash : String
  payload : String
  signature : String
  createdAt : Nat
deriving DecidableEq

instance : Inhabited EventLogEntry :=
  ⟨⟨0, "", "", "", "", "", "", 0⟩⟩

/-- `getEventLogEntriesByJobId` from `db.ts`: the job's events in
append order. -/
def getEventLogEntriesByJobId (eventLog : List EventLogEntry) (jobId : String) :
    List EventLogEntry :=
  eventLog.filter (fun e => e.jobId == jobId)

/-- `getLastEventHashForJob` from `db.ts`: returns
`entries[entries.length - 1].previousHash` — the *previousHash field*
of the job's last stored event — or `undefined` when the job has no
events. -/
def getLastEventHashForJob (eventLog : List EventLogEntry) (jobId : String) : Option String :=
  let entries := getEventLogEntriesByJobId eventLog jobId
  if entries.length = 0 then none
  else some ((entries.getD (entries.length - 1) default).previousHash)

/-- `Agent` from `db.ts`. -/
structure Agent where
  did : String
  publicKey : String
  name : String
  registeredAt : Nat
deriving DecidableEq

/-- `insertAgent` from `db.ts`: the store is a map keyed by `did`;
inserting an existing `did` throws. -/
def insertAgent (agents : List Agent) (agent : Agent) : Except String (List Agent) :=
  if agents.any (fun a => a.did == agent.did) then
    .error ("Agent " ++ agent.did ++ " already exists")
  else .ok (agents ++ [agent])

/-- `getAgentByPublicKey` from `db.ts`: first agent with the given
public key, if any. -/
def getAgentByPublicKey (agents : List Agent) (publicKey : String) : Option Agent :=
  agents.find? (fun a => a.publicKey == publicKey)

/-- Outcome of the `POST /agents` handler, by HTTP status. -/
inductive RegResult where
  | invalidPayload : RegResult
  | invalidSignature : RegResult
  | invalidSignerId : RegResult
  | conflict : RegResult
  | serverError : RegResult
  | created : RegResult
deriving DecidableEq

/-- A registration request: the payload fields used by the handler
(`payload.name`, `payload.publicKey`), the detached signature and the
claimed `signerId`. `none` models an absent field. -/
structure RegRequest where
  payloadName : Option String
  payloadPublicKey : Option String
  signature : Option String
  signerId : Option String

/-- JavaScript falsiness of an optional string field (absent or empty). -/
def falsyStr (o : Option String) : Bool :=
  match o with
  | none => true
  | some s => s == ""

/-- The `POST /agents` handler from `routes-agents.ts`, parameterized
by the Ed25519 verification core `vf` (via `verify`). It checks payload
presence, verifies the signature against the embedded public key,
requires the claimed `signerId` to equal
`"did:atn:" + publicKey.substring(0, 16)`, rejects an already
registered public key with 409, and otherwise inserts the agent (an
`insertAgent` throw is caught and surfaced as a 500 with no state
change). Returns the new store and the outcome. -/
def registerAgent (vf : List Nat → List Nat → List Nat → Bool)
    (agents : List Agent) (req : RegRequest) (now : Nat) : List Agent × RegResult :=
  if falsyStr req.payloadName ∨ falsyStr req.payloadPublicKey ∨ falsyStr req.signature then
    (agents, .invalidPayload)
  else if verify vf
      (utf8Bytes (canonicalize (.obj [("name", .str (req.payloadName.getD "")),
        ("publicKey", .str (req.payloadPublicKey.getD ""))])))
      (req.signature.getD "") (req.payloadPublicKey.getD "") = false then
    (agents, .invalidSignature)
  else if req.signerId ≠ some ("did:atn:" ++ (req.payloadPublicKey.getD "").take 16) then
    (agents, .invalidSignerId)
  else if (getAgentByPublicKey agents (req.payloadPublicKey.getD "")).isSome then
    (agents, .conflict)
  else
    match insertAgent agents ⟨"did:atn:" ++ (req.payloadPublicKey.getD "").take 16,
        req.payloadPublicKey.getD "", req.payloadName.getD "", now⟩ with
    | .ok agents' => (agents', .created)
    | .error _ => (agents, .serverError)

/-- Run a sequence of registration requests (with their timestamps)
against a store. -/
def runRegistrations (vf : List Nat → List Nat → List Nat → Bool)
    (reqs : List (RegRequest × Nat)) (agents : List Agent) : List Agent :=
  reqs.foldl (fun acc rn => (registerAgent vf acc rn.1 rn.2).1) agents

mutual

/-- Structural equality of JSON values up to permutation of object
keys at any nesting depth: arrays must match pointwise in order, while
an object's members may be reordered arbitrarily (`mid` is the
pointwise-related list, permuted into the right-hand object). Object
keys are required to be duplicate-free, as JavaScript object keys
are. -/
inductive KeyPerm : Jv → Jv → Prop
  | null : KeyPerm .null .null
  | bool (b : Bool) : KeyPerm (.bool b) (.bool b)
  | num (n : Int) : KeyPerm (.num n) (.num n)
  | str (s : String) : KeyPerm (.str s) (.str s)
  | arr {xs ys : List Jv} : KeyPermList xs ys → KeyPerm (.arr xs) (.arr ys)
  | obj {kvs mid kvs' : List (String × Jv)} :
      (kvs.map Prod.fst).Nodup → KeyPermPairs kvs mid → mid.Perm kvs' →
      KeyPerm (.obj kvs) (.obj kvs')

/-- Pointwise `KeyPerm` on element lists. -/
inductive KeyPermList : List Jv → List Jv → Prop
  | nil : KeyPermList [] []
  | cons {x y : Jv} {xs ys : List Jv} :
      KeyPerm x y → KeyPermList xs ys → KeyPermList (x :: xs) (y :: ys)

/-- Pointwise `KeyPerm` on member lists: keys equal, values related. -/
inductive KeyPermPairs : List (String × Jv) → List (String × Jv) → Prop
  | nil : KeyPermPairs [] []
  | cons {k : String} {v w : Jv} {ps qs : List (String × Jv)} :
      KeyPerm v w → KeyPermPairs ps qs → KeyPermPairs ((k, v) :: ps) ((k, w) :: qs)

end

/-- Two object members agree on their key and on the rendering of
their values. -/
def PairRel (p q : String × Jv) : Prop := p.1 = q.1 ∧ render p.2 = render q.2

mutual

/-- Number of JSON nodes, used as a fuel bound for the parser. -/
def sizeJ : Jv → Nat
  | .arr xs => 1 + sizeL xs
  | .obj kvs => 1 + sizeP kvs
  | .null => 1
  | .bool _ => 1
  | .num _ => 1
  | .str _ => 1

/-- Node count of an element list. -/
def sizeL : List Jv → Nat
  | [] => 0
  | x :: xs => 1 + sizeJ x + sizeL xs

/-- Node count of a member list. -/
def sizeP : List (String × Jv) → Nat
  | [] => 0
  | p :: ps => 1 + sizeJ p.2 + sizeP ps

end

mutual

/-- The canonical-order normal form of a value: every object's members
sorted by key, recursively. Parsing a canonical document yields exactly
this form. -/
def norm : Jv → Jv
  | .null => .null
  | .bool b => .bool b
  | .num n => .num n
  | .str s => .str s
  | .arr xs => .arr (normList xs)
  | .obj kvs => .obj (normPairs (sortPairs kvs))
termination_by x => sizeOf x
decreasing_by
  all_goals simp_wf
  all_goals simp_arith [sizeOf_sortPairs]

/-- Pointwise normal form of an element list. -/
def normList : List Jv → List Jv
  | [] => []
  | x :: xs => norm x :: normList xs
termination_by xs => sizeOf xs
decreasing_by all_goals simp_wf <;> simp_arith

/-- Pointwise normal form of a member list. -/
def normPairs : List (String × Jv) → List (String × Jv)
  | [] => []
  | p :: ps => (p.1, norm p.2) :: normPairs ps
termination_by ps => sizeOf ps
decreasing_by
  all_goals simp_wf
  all_goals try obtain ⟨k, v⟩ := q
  all_goals simp_arith

end

mutual

/-- Well-formedness of a JSON value as a model of a JavaScript value:
every object's keys are duplicate-free (JavaScript objects cannot carry
duplicate properties). -/
def wfJv : Jv → Bool
  | .null => true
  | .bool _ => true
  | .num _ => true
  | .str _ => true
  | .arr xs => wfList xs
  | .obj kvs => decide ((kvs.map Prod.fst).Nodup) && wfPairs kvs

/-- Well-formedness of an element list. -/
def wfList : List Jv → Bool
  | [] => true
  | x :: xs => wfJv x && wfList xs

/-- Well-formedness of a member list. -/
def wfPairs : List (String × Jv) → Bool
  | [] => true
  | p :: ps => wfJv p.2 && wfPairs ps

end

/-- The trailing input after a rendered value must not begin with a
digit (otherwise the number parser would consume it); every separator
and closing bracket satisfies this. -/
def restOk (rest : List Char) : Prop :=
  ∀ c, rest.head? = some c → isDigitC c = false

/-- A verification core that accepts: used to model requests whose
Ed25519 signature genuinely verifies, which is orthogonal to the
identifier checks under study. -/
def vfTrue : List Nat → List Nat → List Nat → Bool := fun _ _ _ => true

/-- A well-formed 44-character base64 encoding of a 32-byte public
key. -/
def cPk : String := "AAAAAAAAAAAAAAAAAAAAAAAAAAAAAAAAAAAAAAAAAAA="

/-- A well-formed 88-character base64 encoding of a 64-byte
signature. -/
def cSig : String := String.mk (List.replicate 86 'A') ++ "=="

/-- A concrete registration request whose `signerId` is the
`did:atn:`-derived identifier the handler expects. -/
def cReq : RegRequest := ⟨some "Agent", some cPk, some cSig, some ("did:atn:" ++ cPk.take 16)⟩

/-- A concrete one-event log for a job, with `previousHash` equal to
the genesis constant used by the source system. -/
def cLog : List EventLogEntry :=
  [⟨1, "job_1", "JOB_CREATED", "did:atn:client", sha256 "GENESIS", "\x7b\x7d", "sig1", 100⟩]

end ATN

namespace ATN

theorem getD_length_sub_one (l : List EventLogEntry) (h : l ≠ []) :
    l.getLast? = some (l.getD (l.length - 1) default) := by
  induction l with
  | nil => simp at h
  | cons a t ih =>
    cases t with
    | nil => simp [List.getLast?, List.getD]
    | cons b t' =>
      rw [List.getLast?_cons_cons, ih (by simp)]
      simp [List.getD]

/-- C1. The store's tail-hash accessor returns the `previousHash`
field of the job's last stored event, not an event hash of its own:
`EventLogEntry` does not even store an event hash, so the value handed
to the appender is the predecessor link of the tail event rather than
the tail event's hash. This proves the claim's final conjunct false of
the code (the spec's design notes themselves flag the resulting
hardcoded-genesis chaining as a defect). -/
theorem getLastEventHashForJob_eq_last_previousHash :
    ∀ (eventLog : List EventLogEntry) (jobId : String),
      getLastEventHashForJob eventLog jobId =
        (getEventLogEntriesByJobId eventLog jobId).getLast?.map (fun e => e.previousHash) := by
  intro log jobId
  simp only [getLastEventHashForJob]
  generalize getEventLogEntriesByJobId log jobId = entries
  cases hne : entries with
  | nil => simp
  | cons e es =>
    rw [getD_length_sub_one (e :: es) (by simp)]
    simp

/-- C2 (counterexample). `verifyChain` accepts entries whose
`previousHash` is `"aa"` and entries whose `previousHash` is `"bb"`;
since at most one of the two can equal any genesis constant, the
function performs no genesis-constant check (and, being
`Bool`-valued over a single entry, reports no tamper index). -/
theorem verifyChain_accepts_any_previousHash :
    verifyChain "aa" (Jv.str "p") (chainHash "aa" (Jv.str "p")) = true ∧
    verifyChain "bb" (Jv.str "p") (chainHash "bb" (Jv.str "p")) = true ∧
    "aa" ≠ "bb" := by
  refine ⟨?_, ?_, by decide⟩ <;> simp [verifyChain]

/-- C2 (amended). `verifyChain` verifies a single entry: it returns
`true` exactly when the hash recomputed by `chainHash` from the entry's
own `previousHash` and canonical payload equals the stored hash. -/
theorem verifyChain_eq_chainHash :
    ∀ (previousHash : String) (currentPayload : Jv) (expectedHash : String),
      verifyChain previousHash currentPayload expectedHash = true ↔
        chainHash previousHash currentPayload = expectedHash := by
  intro ph p h
  simp [verifyChain]

/-- C4. The escrow state machine admits exactly the four documented
edges, and `SETTLED` is terminal with no outgoing edges. -/
theorem statemachine_edges_exact :
    (∀ f t : JobState, isValidTransition f t = true ↔
      (f = .CREATED ∧ t = .FUNDED) ∨ (f = .FUNDED ∧ t = .PROVED) ∨
      (f = .PROVED ∧ t = .ATTESTED) ∨ (f = .ATTESTED ∧ t = .SETTLED)) ∧
    isTerminal .SETTLED = true ∧ getNextStates .SETTLED = [] := by
  decide

/-- C8 (counterexample). A fund transition out of `CREATED` is accepted
by `validateTransition` unconditionally: the function's inputs are only
the two states, so no requesting actor or role can make it reject, in
particular it is not "rejected unless the actor is the job's
client". -/
theorem validateTransition_accepts_fund_unconditionally :
    validateTransition JobState.CREATED JobState.FUNDED = { valid := true, reason := none } := by
  decide

/-- C8 (amended). The state machine is a pure function of the `(from,
to)` pair alone: it validates exactly the pairs admitted by the
transition table (which excludes everything out of the terminal state),
and every rejection carries a diagnostic reason; actor roles and quorum
counters are not inputs and are not checked here. -/
theorem validateTransition_pure_in_from_to :
    ∀ f t : JobState,
      ((validateTransition f t).valid = isValidTransition f t) ∧
      ((validateTransition f t).valid = false → (validateTransition f t).reason.isSome = true) := by
  decide

/-- C10. `verify` is a total function returning a `Bool`, and whenever
the base64 decoding of the signature or of the public key does not have
the exact length tweetnacl requires (64 and 32 bytes), the library
throw is caught and `verify` returns `false` — for every possible
Ed25519 core. -/
theorem verify_malformed_returns_false :
    ∀ (core : List Nat → List Nat → List Nat → Bool) (message : List Nat)
      (signature publicKey : String),
      (b64decode signature).length ≠ 64 ∨ (b64decode publicKey).length ≠ 32 →
      verify core message signature publicKey = false := by
  intro core m s p h
  unfold verify naclVerify
  rcases h with h | h
  · simp [h]
  · by_cases h2 : (b64decode s).length = 64 <;> simp [h, h2]

/-- C10 (witness). A three-character signature and a four-character key
are malformed, and `verify` returns `false` on them rather than
raising. -/
theorem verify_malformed_returns_false_witness :
    ((b64decode "zz!").length ≠ 64 ∨ (b64decode "AAAA").length ≠ 32) ∧
    verify vfTrue [] "zz!" "AAAA" = false :=
  ⟨Or.inl (by decide), verify_malformed_returns_false vfTrue [] "zz!" "AAAA" (Or.inl (by decide))⟩

/-- The failing input of C1 evaluated: for a job whose only event
carries the genesis constant as `previousHash`, the store hands the
appender that genesis constant back (the event's own hash is nowhere to
be found), so the next event links to genesis again and no chain
forms. -/
theorem getLastEventHashForJob_cLog :
    getLastEventHashForJob cLog "job_1" = some (sha256 "GENESIS") := by
  rfl

set_option maxRecDepth 10000

/-- C3 (counterexample). A registration whose signature verifies
(`vfTrue` models the Ed25519 core accepting a correctly signed request)
and whose claimed `signerId` is the handler's `did:atn:`-prefixed
truncation of the public key is accepted with 201, even though that
`signerId` differs from `deriveAgentId(publicKey)` — the Identity &
Signature Engine's derivation, which the handler never calls. -/
theorem register_accepts_signerId_not_deriveAgentId :
    (registerAgent vfTrue [] cReq 0).2 = RegResult.created ∧
    cReq.signerId ≠ some (deriveAgentId cPk) := by
  constructor
  · rfl
  · intro h
    simp only [cReq, Option.some.injEq] at h
    have : ("did:atn:" ++ cPk.take 16) = deriveAgentId cPk := h
    revert this
    decide

theorem not_falsy_some (o : Option String) (h : falsyStr o ≠ true) :
    o = some (o.getD "") := by
  cases o with
  | none => simp [falsyStr] at h
  | some s => rfl

/-- C3 (amended). A registration is accepted (201) only if the
signature over the canonical payload verifies against the embedded
public key and the claimed `signerId` equals
`"did:atn:" + publicKey.substring(0, 16)` — a deterministic derivation
from the public key, but not `deriveAgentId`. -/
theorem register_created_requires_did_binding :
    ∀ (vf : List Nat → List Nat → List Nat → Bool) (agents : List Agent)
      (req : RegRequest) (now : Nat),
      (registerAgent vf agents req now).2 = RegResult.created →
      ∃ name pk sig, req.payloadName = some name ∧ req.payloadPublicKey = some pk ∧
        req.signature = some sig ∧
        verify vf (utf8Bytes (canonicalize (.obj [("name", .str name), ("publicKey", .str pk)]))) sig pk = true ∧
        req.signerId = some ("did:atn:" ++ pk.take 16) := by
  intro vf agents req now h
  unfold registerAgent at h
  split at h
  · simp at h
  · rename_i h1
    split at h
    · simp at h
    · rename_i h2
      split at h
      · simp at h
      · rename_i h3
        push_neg at h1
        refine ⟨req.payloadName.getD "", req.payloadPublicKey.getD "", req.signature.getD "",
          not_falsy_some _ h1.1, not_falsy_some _ h1.2.1, not_falsy_some _ h1.2.2,
          ?_, not_not.mp h3⟩
        cases hb : verify vf
            (utf8Bytes (canonicalize (.obj [("name", .str (req.payloadName.getD "")),
              ("publicKey", .str (req.payloadPublicKey.getD ""))])))
            (req.signature.getD "") (req.payloadPublicKey.getD "") with
        | false => exact absurd hb h2
        | true => rfl

/-- C3 (witness for the amended theorem). The concrete accepted
registration satisfies the extracted binding conditions. -/
theorem register_created_requires_did_binding_witness :
    ∃ name pk sig, cReq.payloadName = some name ∧ cReq.payloadPublicKey = some pk ∧
      cReq.signature = some sig ∧
      verify vfTrue (utf8Bytes (canonicalize (.obj [("name", .str name), ("publicKey", .str pk)]))) sig pk = true ∧
      cReq.signerId = some ("did:atn:" ++ pk.take 16) :=
  register_created_requires_did_binding vfTrue [] cReq 0 (by rfl)

theorem map_concat_nodup {α β : Type} [DecidableEq β] (f : α → β) (l : List α) (x : α)
    (hl : (l.map f).Nodup) (hx : f x ∉ l.map f) : ((l ++ [x]).map f).Nodup := by
  rw [List.map_append, List.map_singleton]
  exact ((List.perm_append_singleton (f x) (l.map f)).nodup_iff).mpr (List.nodup_cons.mpr ⟨hx, hl⟩)

theorem registerAgent_preserves_nodup (vf : List Nat → List Nat → List Nat → Bool)
    (agents : List Agent) (req : RegRequest) (now : Nat)
    (hd : (agents.map (fun a => a.did)).Nodup)
    (hp : (agents.map (fun a => a.publicKey)).Nodup) :
    (((registerAgent vf agents req now).1.map (fun a => a.did)).Nodup ∧
     ((registerAgent vf agents req now).1.map (fun a => a.publicKey)).Nodup) := by
  unfold registerAgent
  split
  · exact ⟨hd, hp⟩
  · split
    · exact ⟨hd, hp⟩
    · split
      · exact ⟨hd, hp⟩
      · split
        · exact ⟨hd, hp⟩
        · rename_i hfind
          split
          · rename_i agents' hins
            unfold insertAgent at hins
            split at hins
            · exact absurd hins (by simp)
            · rename_i hdid
              simp only [Except.ok.injEq] at hins
              subst hins
              constructor
              · refine map_concat_nodup _ _ _ hd ?_
                intro hmem
                rw [List.mem_map] at hmem
                obtain ⟨a, ha, he⟩ := hmem
                exact hdid (List.any_eq_true.mpr ⟨a, ha, by simp [he]⟩)
              · refine map_concat_nodup _ _ _ hp ?_
                intro hmem
                rw [List.mem_map] at hmem
                obtain ⟨a, ha, he⟩ := hmem
                have hnone := Option.not_isSome_iff_eq_none.mp hfind
                unfold getAgentByPublicKey at hnone
                rw [List.find?_eq_none] at hnone
                exact hnone a ha (by simp [he])
          · exact ⟨hd, hp⟩

theorem runRegistrations_preserves_nodup (vf : List Nat → List Nat → List Nat → Bool)
    (reqs : List (RegRequest × Nat)) :
    ∀ (agents : List Agent),
      (agents.map (fun a => a.did)).Nodup → (agents.map (fun a => a.publicKey)).Nodup →
      ((runRegistrations vf reqs agents).map (fun a => a.did)).Nodup ∧
      ((runRegistrations vf reqs agents).map (fun a => a.publicKey)).Nodup := by
  induction reqs with
  | nil => intro agents hd hp; exact ⟨hd, hp⟩
  | cons rn rest ih =>
    intro agents hd hp
    have step := registerAgent_preserves_nodup vf agents rn.1 rn.2 hd hp
    simpa [runRegistrations] using ih (registerAgent vf agents rn.1 rn.2).1 step.1 step.2

/-- C9. Registry uniqueness: (a) after any sequence of registration
attempts against an initially empty store, the identifiers and the
public keys of the stored agents are both duplicate-free — so at most
one `(identifier → publicKey)` binding exists per identifier, and two
registrations presenting the same public key never both succeed; and
(b) a registration presenting a public key that is already registered
is rejected (409) and leaves the store unchanged. Both hold for every
Ed25519 core. -/
theorem registry_bindings_unique :
    (∀ (vf : List Nat → List Nat → List Nat → Bool) (reqs : List (RegRequest × Nat)),
      ((runRegistrations vf reqs []).map (fun a => a.did)).Nodup ∧
      ((runRegistrations vf reqs []).map (fun a => a.publicKey)).Nodup) ∧
    (∀ (vf : List Nat → List Nat → List Nat → Bool) (agents : List Agent)
       (req : RegRequest) (now : Nat) (a : Agent),
      a ∈ agents → req.payloadPublicKey = some a.publicKey →
      (registerAgent vf agents req now).1 = agents ∧
      (registerAgent vf agents req now).2 ≠ RegResult.created) := by
  constructor
  · intro vf reqs
    exact runRegistrations_preserves_nodup vf reqs [] (by simp) (by simp)
  · intro vf agents req now a ha hpk
    unfold registerAgent
    split
    · exact ⟨rfl, by simp⟩
    · split
      · exact ⟨rfl, by simp⟩
      · split
        · exact ⟨rfl, by simp⟩
        · split
          · exact ⟨rfl, by simp⟩
          · rename_i hfind
            exfalso
            apply hfind
            unfold getAgentByPublicKey
            exact List.find?_isSome.mpr ⟨a, ha, by simp [hpk]⟩

/-- C9 (witness). Concretely: starting from the empty store, running
the accepted registration twice yields a duplicate-free store, and the
second attempt against the store holding the first agent is rejected
without changing the store. -/
theorem registry_bindings_unique_witness :
    (((runRegistrations vfTrue [(cReq, 0), (cReq, 1)] []).map (fun a => a.did)).Nodup ∧
     ((runRegistrations vfTrue [(cReq, 0), (cReq, 1)] []).map (fun a => a.publicKey)).Nodup) ∧
    ((registerAgent vfTrue [⟨"did:atn:AAAAAAAAAAAAAAAA", cPk, "Agent", 0⟩] cReq 1).1 =
      [⟨"did:atn:AAAAAAAAAAAAAAAA", cPk, "Agent", 0⟩] ∧
     (registerAgent vfTrue [⟨"did:atn:AAAAAAAAAAAAAAAA", cPk, "Agent", 0⟩] cReq 1).2 ≠
      RegResult.created) :=
  ⟨registry_bindings_unique.1 vfTrue [(cReq, 0), (cReq, 1)],
   registry_bindings_unique.2 vfTrue [⟨"did:atn:AAAAAAAAAAAAAAAA", cPk, "Agent", 0⟩] cReq 1
     ⟨"did:atn:AAAAAAAAAAAAAAAA", cPk, "Agent", 0⟩ (by simp) (by rfl)⟩

end ATN

namespace ATN

theorem insertPair_rel {p q : String × Jv} {L M : List (String × Jv)}
    (hpq : PairRel p q) (h : List.Forall₂ PairRel L M) :
    List.Forall₂ PairRel (insertPair p L) (insertPair q M) := by
  induction h with
  | nil => exact .cons hpq .nil
  | cons hab t ih =>
    rename_i a b L' M'
    simp only [insertPair]
    by_cases hle : p.1 ≤ a.1
    · rw [if_pos hle, if_pos (by rw [← hpq.1, ← hab.1]; exact hle)]
      exact .cons hpq (.cons hab t)
    · rw [if_neg hle, if_neg (by rw [← hpq.1, ← hab.1]; exact hle)]
      exact .cons hab ih

theorem sortPairs_rel {L M : List (String × Jv)} (h : List.Forall₂ PairRel L M) :
    List.Forall₂ PairRel (sortPairs L) (sortPairs M) := by
  induction h with
  | nil => exact .nil
  | cons hpq t ih => exact insertPair_rel hpq ih

theorem renderMembers_congr {L M : List (String × Jv)} (h : List.Forall₂ PairRel L M) :
    renderMembers L = renderMembers M := by
  induction h with
  | nil => rfl
  | cons hpq t ih =>
    cases t with
    | nil => simp [renderMembers, hpq.1, hpq.2]
    | cons h2 t2 => simp [renderMembers, hpq.1, hpq.2, ih]

theorem insertPair_comm {x y : String × Jv} (hxy : x.1 ≠ y.1) :
    ∀ (L : List (String × Jv)), insertPair x (insertPair y L) = insertPair y (insertPair x L) := by
  intro L
  induction L with
  | nil =>
    by_cases h1 : x.1 ≤ y.1
    · have h2 : ¬ y.1 ≤ x.1 := fun h => hxy (le_antisymm h1 h)
      simp [insertPair, h1, h2]
    · have h2 : y.1 ≤ x.1 := le_of_not_le h1
      simp [insertPair, h1, h2]
  | cons a L ih =>
    by_cases hya : y.1 ≤ a.1 <;> by_cases hxa : x.1 ≤ a.1
    · by_cases hxy2 : x.1 ≤ y.1
      · have h2 : ¬ y.1 ≤ x.1 := fun h => hxy (le_antisymm hxy2 h)
        simp [insertPair, hya, hxa, hxy2, h2]
      · have h2 : y.1 ≤ x.1 := le_of_not_le hxy2
        simp [insertPair, hya, hxa, hxy2, h2]
    · have hxy2 : ¬ x.1 ≤ y.1 := fun h => hxa (le_trans h hya)
      simp [insertPair, hya, hxa, hxy2]
    · have hay : a.1 ≤ y.1 := le_of_not_le hya
      have hxy2 : x.1 ≤ y.1 := le_trans hxa hay
      have h2 : ¬ y.1 ≤ x.1 := fun h => hxy (le_antisymm hxy2 h)
      simp [insertPair, hya, hxa, hxy2, h2]
    · simp [insertPair, hya, hxa, ih]

theorem sortPairs_perm_eq : ∀ {L M : List (String × Jv)}, L.Perm M →
    (L.map Prod.fst).Nodup → sortPairs L = sortPairs M := by
  intro L M h
  induction h with
  | nil => intro _; rfl
  | cons x h ih =>
    intro hnd
    simp only [List.map_cons, List.nodup_cons] at hnd
    simp only [sortPairs, ih hnd.2]
  | swap x y L =>
    intro hnd
    simp only [List.map_cons, List.nodup_cons, List.mem_cons] at hnd
    have hxy : y.1 ≠ x.1 := fun h => hnd.1 (Or.inl h)
    simp only [sortPairs]
    exact insertPair_comm hxy (sortPairs L)
  | trans h1 h2 ih1 ih2 =>
    intro hnd
    rw [ih1 hnd]
    refine ih2 ?_
    exact ((h1.map Prod.fst).nodup_iff).mp hnd

theorem keyPermPairs_fst : ∀ {ps qs : List (String × Jv)}, KeyPermPairs ps qs →
    ps.map Prod.fst = qs.map Prod.fst
  | _, _, .nil => rfl
  | _, _, @KeyPermPairs.cons k v w ps qs _ t =>
    congrArg (fun l => k :: l) (keyPermPairs_fst t)

mutual

theorem keyPerm_render : ∀ {x y : Jv}, KeyPerm x y → render x = render y
  | _, _, .null => rfl
  | _, _, .bool _ => rfl
  | _, _, .num _ => rfl
  | _, _, .str _ => rfl
  | _, _, .arr h => by
      simp only [render]
      rw [keyPermList_render h]
  | _, _, @KeyPerm.obj kvs mid kvs' hnd hpairs hperm => by
      have hrel := keyPermPairs_render hpairs
      have h1 : renderMembers (sortPairs kvs) = renderMembers (sortPairs mid) :=
        renderMembers_congr (sortPairs_rel hrel)
      have hmidnd : (mid.map Prod.fst).Nodup := keyPermPairs_fst hpairs ▸ hnd
      have h2 : sortPairs mid = sortPairs kvs' := sortPairs_perm_eq hperm hmidnd
      simp only [render]
      rw [h1, h2]

theorem keyPermList_render : ∀ {xs ys : List Jv}, KeyPermList xs ys →
    renderElems xs = renderElems ys
  | _, _, .nil => rfl
  | _, _, .cons hxy .nil => by
      simp only [renderElems]
      rw [keyPerm_render hxy]
  | _, _, .cons hxy (.cons h2 t2) => by
      simp only [renderElems]
      rw [keyPerm_render hxy, keyPermList_render (.cons h2 t2)]

theorem keyPermPairs_render : ∀ {ps qs : List (String × Jv)}, KeyPermPairs ps qs →
    List.Forall₂ PairRel ps qs
  | _, _, .nil => .nil
  | _, _, .cons hvw t => .cons ⟨rfl, keyPerm_render hvw⟩ (keyPermPairs_render t)

end

theorem renderWith_num (cmp : String → String → Ordering) (i : Int) :
    renderWith cmp (.num i) = renderNum i := by
  rw [renderWith]

theorem renderWith_obj (cmp : String → String → Ordering)
    (kvs : List (String × Jv)) :
    renderWith cmp (.obj kvs) =
      '{' :: renderMembersWith cmp (sortPairsWith cmp kvs) ++ ['}'] := by
  rw [renderWith]

theorem renderElemsWith_one (cmp : String → String → Ordering) (x : Jv) :
    renderElemsWith cmp [x] = renderWith cmp x := by
  rw [renderElemsWith]

theorem renderElemsWith_two (cmp : String → String → Ordering) (x y : Jv)
    (ys : List Jv) :
    renderElemsWith cmp (x :: y :: ys) =
      renderWith cmp x ++ ',' :: renderElemsWith cmp (y :: ys) := by
  rw [renderElemsWith.eq_3]
  simp

theorem renderMembersWith_one (cmp : String → String → Ordering)
    (p : String × Jv) :
    renderMembersWith cmp [p] =
      '"' :: escapeStr p.1.data ++ '"' :: ':' :: renderWith cmp p.2 := by
  rw [renderMembersWith.eq_2]

theorem renderMembersWith_two (cmp : String → String → Ordering)
    (p q : String × Jv) (qs : List (String × Jv)) :
    renderMembersWith cmp (p :: q :: qs) =
      ('"' :: escapeStr p.1.data ++ '"' :: ':' :: renderWith cmp p.2) ++
        ',' :: renderMembersWith cmp (q :: qs) := by
  rw [renderMembersWith.eq_3]
  simp

/-- `byteCmp` answers anything but `gt` exactly on ordered pairs. -/
theorem byteCmp_ne_gt_iff (a b : String) : (¬ byteCmp a b = .gt) ↔ a ≤ b := by
  unfold byteCmp
  split
  · rename_i h1
    simp [le_of_lt h1]
  · split
    · rename_i h1 h2
      simp [not_le.mpr h2]
    · rename_i h1 h2
      simp [le_of_not_lt h2]

/-- At the antisymmetric code-point comparator the stable insertion
coincides with the order-based insertion. -/
theorem insertPairWith_byteCmp (p : String × Jv) :
    ∀ l, insertPairWith byteCmp p l = insertPair p l := by
  intro l
  induction l with
  | nil => rfl
  | cons q qs ih =>
    simp only [insertPairWith, insertPair]
    by_cases h : p.1 ≤ q.1
    · rw [if_pos ((byteCmp_ne_gt_iff p.1 q.1).mpr h), if_pos h]
    · rw [if_neg (fun hc => h ((byteCmp_ne_gt_iff p.1 q.1).mp hc)), if_neg h, ih]

theorem sortPairsWith_byteCmp :
    ∀ l, sortPairsWith byteCmp l = sortPairs l := by
  intro l
  induction l with
  | nil => rfl
  | cons p ps ih => simp only [sortPairsWith, sortPairs, ih, insertPairWith_byteCmp]

/-- C6 (amended). `canonicalize` is deterministic (it is a function)
and key-order invariant whenever no two distinct object keys collate
equal under the key comparator — formalized at the antisymmetric
code-point comparator, which never ties distinct keys and at which the
comparator-parameterized serializer coincides with `canonicalize`
(`canonicalizeWith_byteCmp`): permuting the keys of any object, at any
nesting depth, leaves the canonical serialization byte-identical, while
array element order is preserved by construction (`KeyPerm` relates
arrays only pointwise in order). When the ICU collator behind
`localeCompare` ties distinct keys — NFC versus NFD spellings of one
character — the stable sort preserves input order and byte-identity
fails; that is the C6 counterexample below. -/
theorem canonicalize_key_order_invariant (x y : Jv) (h : KeyPerm x y) :
    canonicalize x = canonicalize y := by
  simp only [canonicalize]
  rw [keyPerm_render h]

/-- C6 (witness). Swapping the two keys of a concrete object leaves
the canonical form unchanged. -/
theorem canonicalize_key_order_invariant_witness :
    canonicalize (Jv.obj [("b", Jv.num 2), ("a", Jv.num 1)]) =
    canonicalize (Jv.obj [("a", Jv.num 1), ("b", Jv.num 2)]) :=
  canonicalize_key_order_invariant _ _
    (KeyPerm.obj (by simp)
      (KeyPermPairs.cons (.num 2) (KeyPermPairs.cons (.num 1) .nil))
      (List.Perm.swap ("a", Jv.num 1) ("b", Jv.num 2) []))

end ATN

namespace ATN

theorem hexVal_digitChar : ∀ n, n < 16 → hexVal (Nat.digitChar n) = some n := by decide

theorem isDigitC_digitChar : ∀ n, n < 10 → isDigitC (Nat.digitChar n) = true := by decide

theorem digitChar_toNat : ∀ n, n < 10 → (Nat.digitChar n).toNat = 48 + n := by decide

theorem natToChars_eq (n : Nat) : natToChars n =
    if n < 10 then [Nat.digitChar n] else natToChars (n / 10) ++ [Nat.digitChar (n % 10)] := by
  conv_lhs => rw [natToChars]

theorem natToChars_ne_nil (n : Nat) : natToChars n ≠ [] := by
  rw [natToChars_eq]
  split <;> simp

theorem natToChars_digits (n : Nat) : ∀ c ∈ natToChars n, isDigitC c = true := by
  induction n using Nat.strong_induction_on with
  | _ n ih =>
    rw [natToChars_eq]
    split
    · rename_i h
      intro c hc
      simp only [List.mem_singleton] at hc
      subst hc
      exact isDigitC_digitChar n h
    · rename_i h
      intro c hc
      rw [List.mem_append] at hc
      rcases hc with hc | hc
      · exact ih (n / 10) (Nat.div_lt_self (by omega) (by omega)) c hc
      · simp only [List.mem_singleton] at hc
        subst hc
        exact isDigitC_digitChar _ (Nat.mod_lt _ (by omega))

theorem digitsToNat_nil (acc : Nat) : digitsToNat acc [] = acc := rfl

theorem digitsToNat_cons (acc : Nat) (c : Char) (cs : List Char) :
    digitsToNat acc (c :: cs) = digitsToNat (acc * 10 + (c.toNat - 48)) cs := rfl

theorem digitsToNat_append (A B : List Char) :
    ∀ acc, digitsToNat acc (A ++ B) = digitsToNat (digitsToNat acc A) B := by
  induction A with
  | nil => intro acc; rfl
  | cons c cs ih =>
    intro acc
    have h1 : digitsToNat acc ((c :: cs) ++ B) = digitsToNat (acc * 10 + (c.toNat - 48)) (cs ++ B) := rfl
    have h2 : digitsToNat acc (c :: cs) = digitsToNat (acc * 10 + (c.toNat - 48)) cs := rfl
    rw [h1, h2, ih]

theorem digitsToNat_natToChars (n : Nat) :
    ∀ acc, digitsToNat acc (natToChars n) = acc * 10 ^ (natToChars n).length + n := by
  induction n using Nat.strong_induction_on with
  | _ n ih =>
    intro acc
    by_cases h : n < 10
    · rw [show natToChars n = [Nat.digitChar n] from by rw [natToChars_eq, if_pos h]]
      simp only [digitsToNat_cons, digitsToNat_nil, List.length_singleton, pow_one,
        digitChar_toNat n h]
      omega
    · rw [show natToChars n = natToChars (n / 10) ++ [Nat.digitChar (n % 10)] from by
        rw [natToChars_eq, if_neg h]]
      rw [digitsToNat_append, ih (n / 10) (Nat.div_lt_self (by omega) (by omega)) acc]
      simp only [digitsToNat_cons, digitsToNat_nil, List.length_append, List.length_singleton]
      rw [digitChar_toNat _ (Nat.mod_lt _ (by omega)), pow_succ]
      have hdm := Nat.div_add_mod n 10
      set B := acc * 10 ^ (natToChars (n / 10)).length with hB
      rw [show acc * (10 ^ (natToChars (n / 10)).length * 10) = B * 10 from by rw [hB]; ring]
      omega

theorem takeWhile_append_all {p : Char → Bool} {A B : List Char}
    (hA : ∀ c ∈ A, p c = true) (hB : ∀ c, B.head? = some c → p c = false) :
    (A ++ B).takeWhile p = A ∧ (A ++ B).dropWhile p = B := by
  induction A with
  | nil =>
    cases B with
    | nil => exact ⟨rfl, rfl⟩
    | cons b bs =>
      have hb := hB b rfl
      simp [List.takeWhile, List.dropWhile, hb]
  | cons a as ih =>
    have ha := hA a (by simp)
    have := ih (fun c hc => hA c (by simp [hc]))
    simp [List.takeWhile, List.dropWhile, ha, this.1, this.2]

theorem parseNatNum_natToChars (n : Nat) (rest : List Char) (hr : restOk rest) :
    parseNatNum (natToChars n ++ rest) = some (n, rest) := by
  have htw := takeWhile_append_all (p := isDigitC) (natToChars_digits n)
    (fun c hc => hr c hc)
  unfold parseNatNum
  rw [htw.1, htw.2]
  rw [if_neg (by simpa using natToChars_ne_nil n)]
  rw [digitsToNat_natToChars]
  simp

theorem sizeJ_pos : ∀ x : Jv, 1 ≤ sizeJ x := by
  intro x
  cases x <;> simp [sizeJ]

end ATN
namespace ATN

theorem psb_quote (r : List Char) : parseStringBody ('"' :: r) = some ([], r) := by
  rw [parseStringBody.eq_def]
  simp

theorem psb_plain (c : Char) (hq : c ≠ '"') (hb : c ≠ '\\') (r : List Char) :
    parseStringBody (c :: r) = (parseStringBody r).map (fun p => (c :: p.1, p.2)) := by
  rw [parseStringBody.eq_def]
  simp [hq, hb]

theorem psb_escape (e ch : Char) (hu : e ≠ 'u') (he : unescapeChar e = some ch) (r : List Char) :
    parseStringBody ('\\' :: e :: r) = (parseStringBody r).map (fun p => (ch :: p.1, p.2)) := by
  rw [parseStringBody.eq_def]
  simp [hu, he]

theorem psb_unicode (h1 h2 h3 h4 : Char) (a b c2 d code : Nat)
    (hh1 : hexVal h1 = some a) (hh2 : hexVal h2 = some b) (hh3 : hexVal h3 = some c2)
    (hh4 : hexVal h4 = some d) (hcode : ((a * 16 + b) * 16 + c2) * 16 + d = code)
    (hv : code.isValidChar) (r : List Char) :
    parseStringBody ('\\' :: 'u' :: h1 :: h2 :: h3 :: h4 :: r) =
      (parseStringBody r).map (fun p => (Char.ofNat code :: p.1, p.2)) := by
  rw [parseStringBody.eq_def]
  simp [hh1, hh2, hh3, hh4, hcode, hv]

end ATN
namespace ATN

theorem escapeStr_nil : escapeStr [] = [] := rfl

theorem escapeStr_cons (c : Char) (cs : List Char) :
    escapeStr (c :: cs) = escapeChar c ++ escapeStr cs := rfl

theorem parseStringBody_escape : ∀ (cs : List Char) (rest : List Char),
    parseStringBody (escapeStr cs ++ '"' :: rest) = some (cs, rest) := by
  intro cs
  induction cs with
  | nil => intro rest; rw [escapeStr_nil, List.nil_append]; exact psb_quote rest
  | cons c cs ih =>
    intro rest
    rw [escapeStr_cons, List.append_assoc]
    unfold escapeChar
    by_cases e1 : c = '"'
    · rw [if_pos e1]
      rw [show (['\\', '"'] : List Char) ++ (escapeStr cs ++ '"' :: rest) =
        '\\' :: '"' :: (escapeStr cs ++ '"' :: rest) from rfl]
      rw [psb_escape '"' '"' (by decide) (by decide), ih rest]
      simp [e1]
    · rw [if_neg e1]
      by_cases e2 : c = '\\'
      · rw [if_pos e2]
        rw [show (['\\', '\\'] : List Char) ++ (escapeStr cs ++ '"' :: rest) =
          '\\' :: '\\' :: (escapeStr cs ++ '"' :: rest) from rfl]
        rw [psb_escape '\\' '\\' (by decide) (by decide), ih rest]
        simp [e2]
      · rw [if_neg e2]
        by_cases e3 : c = Char.ofNat 8
        · rw [if_pos e3]
          rw [show (['\\', 'b'] : List Char) ++ (escapeStr cs ++ '"' :: rest) =
            '\\' :: 'b' :: (escapeStr cs ++ '"' :: rest) from rfl]
          rw [psb_escape 'b' (Char.ofNat 8) (by decide) (by decide), ih rest]
          simp [e3]
        · rw [if_neg e3]
          by_cases e4 : c = Char.ofNat 9
          · rw [if_pos e4]
            rw [show (['\\', 't'] : List Char) ++ (escapeStr cs ++ '"' :: rest) =
              '\\' :: 't' :: (escapeStr cs ++ '"' :: rest) from rfl]
            rw [psb_escape 't' (Char.ofNat 9) (by decide) (by decide), ih rest]
            simp [e4]
          · rw [if_neg e4]
            by_cases e5 : c = Char.ofNat 10
            · rw [if_pos e5]
              rw [show (['\\', 'n'] : List Char) ++ (escapeStr cs ++ '"' :: rest) =
                '\\' :: 'n' :: (escapeStr cs ++ '"' :: rest) from rfl]
              rw [psb_escape 'n' (Char.ofNat 10) (by decide) (by decide), ih rest]
              simp [e5]
            · rw [if_neg e5]
              by_cases e6 : c = Char.ofNat 12
              · rw [if_pos e6]
                rw [show (['\\', 'f'] : List Char) ++ (escapeStr cs ++ '"' :: rest) =
                  '\\' :: 'f' :: (escapeStr cs ++ '"' :: rest) from rfl]
                rw [psb_escape 'f' (Char.ofNat 12) (by decide) (by decide), ih rest]
                simp [e6]
              · rw [if_neg e6]
                by_cases e7 : c = Char.ofNat 13
                · rw [if_pos e7]
                  rw [show (['\\', 'r'] : List Char) ++ (escapeStr cs ++ '"' :: rest) =
                    '\\' :: 'r' :: (escapeStr cs ++ '"' :: rest) from rfl]
                  rw [psb_escape 'r' (Char.ofNat 13) (by decide) (by decide), ih rest]
                  simp [e7]
                · rw [if_neg e7]
                  by_cases e8 : c.toNat < 32
                  · rw [if_pos e8]
                    rw [show (['\\', 'u', '0', '0', Nat.digitChar (c.toNat / 16),
                        Nat.digitChar (c.toNat % 16)] : List Char) ++ (escapeStr cs ++ '"' :: rest) =
                      '\\' :: 'u' :: '0' :: '0' :: Nat.digitChar (c.toNat / 16) ::
                        Nat.digitChar (c.toNat % 16) :: (escapeStr cs ++ '"' :: rest) from rfl]
                    rw [psb_unicode '0' '0' (Nat.digitChar (c.toNat / 16))
                      (Nat.digitChar (c.toNat % 16)) 0 0 (c.toNat / 16) (c.toNat % 16) c.toNat
                      (by decide) (by decide)
                      (hexVal_digitChar (c.toNat / 16) (by omega))
                      (hexVal_digitChar (c.toNat % 16) (by omega))
                      (by omega) (Or.inl (by omega)), ih rest]
                    simp [Char.ofNat_toNat]
                  · rw [if_neg e8]
                    rw [show ([c] : List Char) ++ (escapeStr cs ++ '"' :: rest) =
                      c :: (escapeStr cs ++ '"' :: rest) from rfl]
                    rw [psb_plain c e1 e2, ih rest]
                    simp

end ATN
namespace ATN

theorem isDigitC_ne_special {c : Char} (h : isDigitC c = true) :
    c ≠ 'n' ∧ c ≠ 't' ∧ c ≠ 'f' ∧ c ≠ '"' ∧ c ≠ '[' ∧ c ≠ '{' ∧ c ≠ '-' ∧
    c ≠ ']' ∧ c ≠ '}' ∧ c ≠ ',' ∧ c ≠ ':' := by
  refine ⟨?_, ?_, ?_, ?_, ?_, ?_, ?_, ?_, ?_, ?_, ?_⟩ <;>
    (intro he; subst he; exact absurd h (by decide))

theorem renderNum_starts (i : Int) :
    ∃ c cs, renderNum i = c :: cs ∧ (c = '-' ∨ isDigitC c = true) := by
  unfold renderNum
  split
  · exact ⟨'-', _, rfl, Or.inl rfl⟩
  · rcases hc : natToChars i.toNat with _ | ⟨d, ds⟩
    · exact absurd hc (natToChars_ne_nil _)
    · exact ⟨d, ds, rfl, Or.inr (natToChars_digits _ d (by rw [hc]; simp))⟩

theorem render_starts (x : Jv) : ∃ c cs, render x = c :: cs ∧ c ≠ ']' ∧ c ≠ '}' := by
  cases x with
  | null => exact ⟨'n', _, by rw [render]; rfl, by decide, by decide⟩
  | bool b =>
    cases b with
    | true => exact ⟨'t', _, by rw [render]; rfl, by decide, by decide⟩
    | false => exact ⟨'f', _, by rw [render]; rfl, by decide, by decide⟩
  | num i =>
    obtain ⟨c, cs, hr, hc⟩ := renderNum_starts i
    refine ⟨c, cs, by rw [render]; exact hr, ?_, ?_⟩
    · rcases hc with hc | hc
      · subst hc; decide
      · exact (isDigitC_ne_special hc).2.2.2.2.2.2.2.1
    · rcases hc with hc | hc
      · subst hc; decide
      · exact (isDigitC_ne_special hc).2.2.2.2.2.2.2.2.1
  | str s => exact ⟨'"', _, by rw [render, List.cons_append], by decide, by decide⟩
  | arr xs => exact ⟨'[', _, by rw [render, List.cons_append], by decide, by decide⟩
  | obj kvs => exact ⟨'{', _, by rw [render, List.cons_append], by decide, by decide⟩

theorem renderElems_one (x : Jv) : renderElems [x] = render x := by
  rw [renderElems]

theorem renderElems_two (x y : Jv) (ys : List Jv) :
    renderElems (x :: y :: ys) = render x ++ ',' :: renderElems (y :: ys) := by
  rw [renderElems.eq_3]
  simp

theorem renderMembers_one (p : String × Jv) :
    renderMembers [p] = '"' :: escapeStr p.1.data ++ '"' :: ':' :: render p.2 := by
  rw [renderMembers.eq_2]

theorem renderMembers_two (p q : String × Jv) (qs : List (String × Jv)) :
    renderMembers (p :: q :: qs) =
      ('"' :: escapeStr p.1.data ++ '"' :: ':' :: render p.2) ++ ',' :: renderMembers (q :: qs) := by
  rw [renderMembers.eq_3]
  simp

theorem renderElems_cons_starts (x : Jv) (xs : List Jv) :
    ∃ c cs, renderElems (x :: xs) = c :: cs ∧ c ≠ ']' ∧ c ≠ '}' := by
  obtain ⟨c, cs, hr, h1, h2⟩ := render_starts x
  cases xs with
  | nil => exact ⟨c, cs, by rw [renderElems_one]; exact hr, h1, h2⟩
  | cons y ys =>
    refine ⟨c, cs ++ ',' :: renderElems (y :: ys), ?_, h1, h2⟩
    rw [renderElems_two, hr]
    rfl

theorem renderMembers_cons_starts (q : String × Jv) (qs : List (String × Jv)) :
    ∃ t, renderMembers (q :: qs) = '"' :: t := by
  cases qs with
  | nil => exact ⟨_, by rw [renderMembers_one, List.cons_append]⟩
  | cons q2 qs2 => exact ⟨_, by rw [renderMembers_two, List.cons_append, List.cons_append]⟩

theorem insertPair_ne_nil (p : String × Jv) (l : List (String × Jv)) :
    insertPair p l ≠ [] := by
  cases l with
  | nil => simp [insertPair]
  | cons q qs => rw [insertPair]; split <;> simp

theorem sortPairs_ne_nil {l : List (String × Jv)} (h : l ≠ []) : sortPairs l ≠ [] := by
  cases l with
  | nil => exact absurd rfl h
  | cons p ps => rw [sortPairs]; exact insertPair_ne_nil p (sortPairs ps)

theorem insertPair_perm (p : String × Jv) (l : List (String × Jv)) :
    (insertPair p l).Perm (p :: l) := by
  induction l with
  | nil => exact List.Perm.refl _
  | cons q qs ih =>
    rw [insertPair]
    split
    · exact List.Perm.refl _
    · exact (ih.cons q).trans (List.Perm.swap p q qs)

theorem sortPairs_perm (l : List (String × Jv)) : (sortPairs l).Perm l := by
  induction l with
  | nil => exact List.Perm.refl _
  | cons p ps ih => exact (insertPair_perm p (sortPairs ps)).trans (ih.cons p)

theorem sizeP_insertPair (p : String × Jv) (l : List (String × Jv)) :
    sizeP (insertPair p l) = sizeP (p :: l) := by
  induction l with
  | nil => rfl
  | cons q qs ih =>
    rw [insertPair]
    split
    · rfl
    · rw [show sizeP (q :: insertPair p qs) = 1 + sizeJ q.2 + sizeP (insertPair p qs) from rfl,
        ih]
      rw [show sizeP (p :: q :: qs) = 1 + sizeJ p.2 + sizeP (q :: qs) from rfl]
      rw [show sizeP (q :: qs) = 1 + sizeJ q.2 + sizeP qs from rfl]
      rw [show sizeP (p :: qs) = 1 + sizeJ p.2 + sizeP qs from rfl]
      omega

theorem sizeP_sortPairs (l : List (String × Jv)) : sizeP (sortPairs l) = sizeP l := by
  induction l with
  | nil => rfl
  | cons p ps ih =>
    rw [sortPairs, sizeP_insertPair]
    rw [show sizeP (p :: sortPairs ps) = 1 + sizeJ p.2 + sizeP (sortPairs ps) from rfl, ih]
    rfl

theorem normPairs_eq_map : ∀ (l : List (String × Jv)),
    normPairs l = l.map (fun p => (p.1, norm p.2)) := by
  intro l
  induction l with
  | nil => rw [normPairs]; rfl
  | cons p ps ih => rw [normPairs, ih]; rfl

theorem mk_data_eq (s : String) : String.mk s.data = s := rfl

end ATN

namespace ATN

mutual

/-- The comparator-parameterized serializer instantiated at the
antisymmetric code-point comparator is exactly `render`: `canonicalize`
is the tie-free instance of the faithful parameterized model. -/
theorem renderWith_byteCmp : ∀ (x : Jv), renderWith byteCmp x = render x
  | .null => by rw [renderWith, render]
  | .bool true => by rw [renderWith, render]
  | .bool false => by rw [renderWith, render]
  | .num i => by rw [renderWith, render]
  | .str s => by rw [renderWith, render]
  | .arr xs => by rw [renderWith, render, renderElemsWith_byteCmp xs]
  | .obj kvs => by
      rw [renderWith, render, sortPairsWith_byteCmp kvs,
        renderMembersWith_byteCmp (sortPairs kvs)]
termination_by x => sizeOf x
decreasing_by
  all_goals simp_wf
  all_goals simp_arith [sizeOf_sortPairs]

theorem renderElemsWith_byteCmp : ∀ (xs : List Jv),
    renderElemsWith byteCmp xs = renderElems xs
  | [] => by rw [renderElemsWith, renderElems]
  | [x] => by rw [renderElemsWith_one, renderElems_one, renderWith_byteCmp x]
  | x :: y :: ys => by
      rw [renderElemsWith_two, renderElems_two, renderWith_byteCmp x,
        renderElemsWith_byteCmp (y :: ys)]
termination_by xs => sizeOf xs
decreasing_by all_goals simp_wf <;> simp_arith

theorem renderMembersWith_byteCmp : ∀ (ps : List (String × Jv)),
    renderMembersWith byteCmp ps = renderMembers ps
  | [] => by rw [renderMembersWith, renderMembers]
  | [p] => by rw [renderMembersWith_one, renderMembers_one, renderWith_byteCmp p.2]
  | p :: q :: qs => by
      rw [renderMembersWith_two, renderMembers_two, renderWith_byteCmp p.2,
        renderMembersWith_byteCmp (q :: qs)]
termination_by ps => sizeOf ps
decreasing_by
  all_goals simp_wf
  all_goals try obtain ⟨k, v⟩ := p
  all_goals simp_arith

end

/-- `canonicalize` is the instance of the parameterized serializer at
the antisymmetric code-point comparator. -/
theorem canonicalizeWith_byteCmp (x : Jv) :
    canonicalizeWith byteCmp x = canonicalize x := by
  unfold canonicalizeWith canonicalize
  rw [renderWith_byteCmp x]

/-- C6 (counterexample). Under a comparator with the ICU-documented tie
— the NFC and NFD spellings of ä are different strings that collate
equal — the stable key sort keeps input order, so the two key orders of
the same two-member object serialize to different byte strings: the
claimed universal byte-identity fails on the comparator the program
actually runs with. -/
theorem canonicalize_key_tie_counterexample :
    nfcKey ≠ nfdKey ∧
    List.Perm [(nfdKey, Jv.num 2), (nfcKey, Jv.num 1)]
      [(nfcKey, Jv.num 1), (nfdKey, Jv.num 2)] ∧
    canonicalizeWith icuTieCmp (Jv.obj [(nfcKey, Jv.num 1), (nfdKey, Jv.num 2)]) ≠
      canonicalizeWith icuTieCmp (Jv.obj [(nfdKey, Jv.num 2), (nfcKey, Jv.num 1)]) := by
  refine ⟨by decide, List.Perm.swap (nfcKey, Jv.num 1) (nfdKey, Jv.num 2) [], ?_⟩
  have h1 : renderNum 1 = ['1'] := by
    unfold renderNum
    rw [if_neg (by decide), show ((1 : Int)).toNat = 1 from rfl, natToChars_eq,
      if_pos (by decide)]
    decide
  have h2 : renderNum 2 = ['2'] := by
    unfold renderNum
    rw [if_neg (by decide), show ((2 : Int)).toNat = 2 from rfl, natToChars_eq,
      if_pos (by decide)]
    decide
  have eA : renderMembersWith icuTieCmp [(nfcKey, Jv.num 1), (nfdKey, Jv.num 2)] =
      ('"' :: escapeStr nfcKey.data ++ '"' :: ':' :: renderWith icuTieCmp (Jv.num 1)) ++
        ',' :: ('"' :: escapeStr nfdKey.data ++ '"' :: ':' :: renderWith icuTieCmp (Jv.num 2)) := by
    rw [renderMembersWith_two, renderMembersWith_one]
  have eB : renderMembersWith icuTieCmp [(nfdKey, Jv.num 2), (nfcKey, Jv.num 1)] =
      ('"' :: escapeStr nfdKey.data ++ '"' :: ':' :: renderWith icuTieCmp (Jv.num 2)) ++
        ',' :: ('"' :: escapeStr nfcKey.data ++ '"' :: ':' :: renderWith icuTieCmp (Jv.num 1)) := by
    rw [renderMembersWith_two, renderMembersWith_one]
  unfold canonicalizeWith
  rw [renderWith_obj, renderWith_obj,
    show sortPairsWith icuTieCmp [(nfcKey, Jv.num 1), (nfdKey, Jv.num 2)] =
      [(nfcKey, Jv.num 1), (nfdKey, Jv.num 2)] from rfl,
    show sortPairsWith icuTieCmp [(nfdKey, Jv.num 2), (nfcKey, Jv.num 1)] =
      [(nfdKey, Jv.num 2), (nfcKey, Jv.num 1)] from rfl,
    eA, eB, renderWith_num, renderWith_num, h1, h2]
  decide

end ATN
namespace ATN

theorem sizeJ_num (i : Int) : sizeJ (.num i) = 1 := by rw [sizeJ]

theorem sizeJ_arr (xs : List Jv) : sizeJ (.arr xs) = 1 + sizeL xs := by rw [sizeJ]

theorem sizeJ_obj (kvs : List (String × Jv)) : sizeJ (.obj kvs) = 1 + sizeP kvs := by rw [sizeJ]

theorem sizeL_nil : sizeL [] = 0 := by rw [sizeL]

theorem sizeL_cons (x : Jv) (xs : List Jv) : sizeL (x :: xs) = 1 + sizeJ x + sizeL xs := by
  rw [sizeL]

theorem sizeP_nil : sizeP [] = 0 := by rw [sizeP]

theorem sizeP_cons (p : String × Jv) (ps : List (String × Jv)) :
    sizeP (p :: ps) = 1 + sizeJ p.2 + sizeP ps := by rw [sizeP]

mutual

theorem sizeJ_le_renderLen : ∀ (x : Jv), sizeJ x ≤ (render x).length
  | .null => by rw [render, sizeJ]; decide
  | .bool b => by
    cases b
    · rw [render, sizeJ]; decide
    · rw [render, sizeJ]; decide
  | .num i => by
    obtain ⟨c, cs, hr, _⟩ := renderNum_starts i
    rw [render, sizeJ, hr]
    simp
  | .str s => by rw [render, sizeJ]; simp
  | .arr xs => by
    rw [render, sizeJ]
    have h := sizeL_le_renderLen xs
    simp only [List.length_cons, List.length_append, List.length_singleton]
    omega
  | .obj kvs => by
    rw [render, sizeJ]
    have h := sizeP_le_renderLen (sortPairs kvs)
    have h2 := sizeP_sortPairs kvs
    simp only [List.length_cons, List.length_append, List.length_singleton]
    omega
termination_by x => sizeOf x
decreasing_by
  all_goals simp_wf
  all_goals simp_arith [sizeOf_sortPairs]

theorem sizeL_le_renderLen : ∀ (xs : List Jv), sizeL xs ≤ 1 + (renderElems xs).length
  | [] => by rw [sizeL_nil]; omega
  | [x] => by
    rw [renderElems_one, sizeL_cons, sizeL_nil]
    have h := sizeJ_le_renderLen x
    omega
  | x :: y :: ys => by
    rw [renderElems_two, sizeL_cons]
    have h1 := sizeJ_le_renderLen x
    have h2 := sizeL_le_renderLen (y :: ys)
    simp only [List.length_append, List.length_cons]
    omega
termination_by xs => sizeOf xs
decreasing_by all_goals simp_wf <;> simp_arith

theorem sizeP_le_renderLen : ∀ (ps : List (String × Jv)), sizeP ps ≤ 1 + (renderMembers ps).length
  | [] => by rw [sizeP_nil]; omega
  | [p] => by
    rw [renderMembers_one, sizeP_cons, sizeP_nil]
    have h := sizeJ_le_renderLen p.2
    simp only [List.length_cons, List.length_append]
    omega
  | p :: q :: qs => by
    rw [renderMembers_two, sizeP_cons]
    have h1 := sizeJ_le_renderLen p.2
    have h2 := sizeP_le_renderLen (q :: qs)
    simp only [List.length_cons, List.length_append]
    omega
termination_by ps => sizeOf ps
decreasing_by
  all_goals simp_wf
  all_goals try obtain ⟨k, v⟩ := p
  all_goals try obtain ⟨k2, v2⟩ := q
  all_goals simp_arith

end

theorem restOk_nil : restOk [] := by
  intro c h
  simp at h

theorem restOk_cons {c : Char} (h : isDigitC c = false) (r : List Char) : restOk (c :: r) := by
  intro c' h'
  simp only [List.head?] at h'
  rw [← Option.some.injEq c' c |>.mp h'.symm] at h
  exact h

end ATN
namespace ATN

theorem pv_null (fuel : Nat) (r : List Char) :
    parseVal (fuel + 1) ('n' :: r) =
      (if r.take 3 = ['u', 'l', 'l'] then some (.null, r.drop 3) else none) := rfl

theorem pv_true (fuel : Nat) (r : List Char) :
    parseVal (fuel + 1) ('t' :: r) =
      (if r.take 3 = ['r', 'u', 'e'] then some (.bool true, r.drop 3) else none) := rfl

theorem pv_false (fuel : Nat) (r : List Char) :
    parseVal (fuel + 1) ('f' :: r) =
      (if r.take 4 = ['a', 'l', 's', 'e'] then some (.bool false, r.drop 4) else none) := rfl

theorem pv_quote (fuel : Nat) (r : List Char) :
    parseVal (fuel + 1) ('"' :: r) =
      (parseStringBody r).map (fun p => (.str (String.mk p.1), p.2)) := rfl

theorem pv_lbrack (fuel : Nat) (d : Char) (r' : List Char) :
    parseVal (fuel + 1) ('[' :: d :: r') =
      (if d = ']' then some (.arr [], r')
       else (parseElems fuel (d :: r')).map (fun p => (.arr p.1, p.2))) := rfl

theorem pv_lbrace (fuel : Nat) (d : Char) (r' : List Char) :
    parseVal (fuel + 1) ('{' :: d :: r') =
      (if d = '}' then some (.obj [], r')
       else (parseMembers fuel (d :: r')).map (fun p => (.obj p.1, p.2))) := rfl

theorem pv_minus (fuel : Nat) (r : List Char) :
    parseVal (fuel + 1) ('-' :: r) =
      (parseNatNum r).map (fun p => (.num (-(p.1 : Int)), p.2)) := rfl

theorem pv_digit (fuel : Nat) (c : Char) (r : List Char) (hd : isDigitC c = true) :
    parseVal (fuel + 1) (c :: r) =
      (parseNatNum (c :: r)).map (fun p => (.num (p.1 : Int), p.2)) := by
  obtain ⟨hn, ht, hf, hq, hlb, hlbr, hm, _, _, _, _⟩ := isDigitC_ne_special hd
  show (if c = 'n' then _ else _) = _
  simp only [if_neg hn, if_neg ht, if_neg hf, if_neg hq, if_neg hlb, if_neg hlbr, if_neg hm,
    hd, if_true]

theorem pe_succ (fuel : Nat) (l : List Char) :
    parseElems (fuel + 1) l =
      (match parseVal fuel l with
       | none => none
       | some (x, rest) =>
         match rest with
         | [] => none
         | sep :: rest' =>
           if sep = ',' then (parseElems fuel rest').map (fun p => (x :: p.1, p.2))
           else if sep = ']' then some ([x], rest')
           else none) := rfl

theorem pm_succ (fuel : Nat) (c : Char) (r : List Char) :
    parseMembers (fuel + 1) (c :: r) =
      (if c = '"' then
        match parseStringBody r with
        | none => none
        | some (kcs, rest) =>
          match rest with
          | [] => none
          | c2 :: rest' =>
            if c2 = ':' then
              match parseVal fuel rest' with
              | none => none
              | some (v, rest2) =>
                match rest2 with
                | [] => none
                | sep :: rest3 =>
                  if sep = ',' then
                    (parseMembers fuel rest3).map (fun p => ((String.mk kcs, v) :: p.1, p.2))
                  else if sep = '}' then some ([(String.mk kcs, v)], rest3)
                  else none
            else none
      else none) := rfl

theorem norm_null : norm .null = .null := by rw [norm]
theorem norm_bool (b : Bool) : norm (.bool b) = .bool b := by rw [norm]
theorem norm_num (i : Int) : norm (.num i) = .num i := by rw [norm]
theorem norm_str (s : String) : norm (.str s) = .str s := by rw [norm]
theorem norm_arr (xs : List Jv) : norm (.arr xs) = .arr (normList xs) := by rw [norm]
theorem norm_obj (kvs : List (String × Jv)) :
    norm (.obj kvs) = .obj (normPairs (sortPairs kvs)) := by rw [norm]
theorem normList_nil : normList [] = [] := by rw [normList]
theorem normList_cons (x : Jv) (xs : List Jv) : normList (x :: xs) = norm x :: normList xs := by
  rw [normList]

end ATN
namespace ATN

theorem parse_render_all : ∀ (fuel : Nat),
    (∀ (x : Jv) (rest : List Char), sizeJ x < fuel → restOk rest →
      parseVal fuel (render x ++ rest) = some (norm x, rest)) ∧
    (∀ (xs : List Jv) (rest : List Char), xs ≠ [] → sizeL xs < fuel →
      parseElems fuel (renderElems xs ++ ']' :: rest) = some (normList xs, rest)) ∧
    (∀ (ps : List (String × Jv)) (rest : List Char), ps ≠ [] → sizeP ps < fuel →
      parseMembers fuel (renderMembers ps ++ '}' :: rest) = some (normPairs ps, rest)) := by
  intro fuel
  induction fuel using Nat.strong_induction_on with
  | _ fuel ih =>
    obtain (rfl | ⟨f, rfl⟩) : fuel = 0 ∨ ∃ f, fuel = f + 1 := by
      cases fuel
      · exact Or.inl rfl
      · exact Or.inr ⟨_, rfl⟩
    · refine ⟨?_, ?_, ?_⟩
      · intro x rest h _
        exact absurd h (Nat.not_lt_zero _)
      · intro xs rest _ h
        exact absurd h (Nat.not_lt_zero _)
      · intro ps rest _ h
        exact absurd h (Nat.not_lt_zero _)
    · refine ⟨?_, ?_, ?_⟩
      · -- values
        intro x rest hs hr
        cases x with
        | null =>
          rw [show render .null = ['n', 'u', 'l', 'l'] from by rw [render]; rfl, norm_null]
          rfl
        | bool b =>
          cases b
          · rw [show render (.bool false) = ['f', 'a', 'l', 's', 'e'] from by rw [render]; rfl,
              norm_bool]
            rfl
          · rw [show render (.bool true) = ['t', 'r', 'u', 'e'] from by rw [render]; rfl,
              norm_bool]
            rfl
        | num i =>
          rw [show render (.num i) = renderNum i from by rw [render], norm_num]
          by_cases hi : i < 0
          · rw [show renderNum i = '-' :: natToChars i.natAbs from by rw [renderNum, if_pos hi]]
            rw [List.cons_append, pv_minus, parseNatNum_natToChars _ _ hr]
            have he : (-((i.natAbs : Nat) : Int)) = i := by omega
            simp only [Option.map_some', he]
          · rw [show renderNum i = natToChars i.toNat from by rw [renderNum, if_neg hi]]
            obtain ⟨d, ds, hd⟩ : ∃ d ds, natToChars i.toNat = d :: ds := by
              rcases hnc : natToChars i.toNat with _ | ⟨d, ds⟩
              · exact absurd hnc (natToChars_ne_nil _)
              · exact ⟨d, ds, rfl⟩
            have hdig : isDigitC d = true := natToChars_digits _ d (by rw [hd]; simp)
            rw [hd, List.cons_append, pv_digit f d (ds ++ rest) hdig]
            rw [show d :: (ds ++ rest) = (d :: ds) ++ rest from rfl, ← hd,
              parseNatNum_natToChars _ _ hr]
            have he : ((i.toNat : Nat) : Int) = i := by omega
            simp [he]
        | str s =>
          rw [show render (.str s) = ('"' :: escapeStr s.data) ++ ['"'] from by rw [render],
            norm_str]
          rw [List.append_assoc, List.cons_append,
            show (['"'] : List Char) ++ rest = '"' :: rest from rfl]
          rw [pv_quote, parseStringBody_escape s.data rest]
          simp [mk_data_eq]
        | arr xs =>
          cases xs with
          | nil =>
            rw [show render (.arr []) = ['[', ']'] from by
              rw [render, renderElems]; rfl, norm_arr, normList_nil]
            rfl
          | cons y ys =>
            rw [show render (.arr (y :: ys)) = ('[' :: renderElems (y :: ys)) ++ [']'] from by
              rw [render], norm_arr]
            obtain ⟨c, cs, hel, hc1, _⟩ := renderElems_cons_starts y ys
            rw [List.append_assoc, List.cons_append,
              show ([']'] : List Char) ++ rest = ']' :: rest from rfl]
            rw [hel, List.cons_append, pv_lbrack, if_neg hc1, ← List.cons_append, ← hel]
            have hIH := (ih f (by omega)).2.1 (y :: ys) rest (by simp) (by
              rw [sizeJ_arr] at hs; omega)
            rw [hIH]
            rfl
        | obj kvs =>
          cases hsp : sortPairs kvs with
          | nil =>
            have hk : kvs = [] := by
              cases kvs with
              | nil => rfl
              | cons p ps => exact absurd hsp (sortPairs_ne_nil (by simp))
            subst hk
            rw [show render (.obj []) = ['{', '}'] from by
              rw [render]; rw [show sortPairs [] = [] from rfl, renderMembers]; rfl, norm_obj,
              show sortPairs [] = [] from rfl, show normPairs [] = [] from by rw [normPairs]]
            rfl
          | cons q qs =>
            have hkne : kvs ≠ [] := by
              intro hk
              subst hk
              exact absurd hsp (by simp [show sortPairs [] = [] from rfl])
            rw [show render (.obj kvs) = ('{' :: renderMembers (sortPairs kvs)) ++ ['}'] from by
              rw [render], norm_obj]
            obtain ⟨t, hmt⟩ := renderMembers_cons_starts q qs
            rw [List.append_assoc, List.cons_append,
              show (['}'] : List Char) ++ rest = '}' :: rest from rfl]
            rw [hsp, hmt, List.cons_append, pv_lbrace, if_neg (by decide), ← List.cons_append,
              ← hmt]
            have hsz : sizeP (q :: qs) < f := by
              rw [sizeJ_obj] at hs
              have := sizeP_sortPairs kvs
              rw [hsp] at this
              omega
            have hIH := (ih f (by omega)).2.2 (q :: qs) rest (by simp) hsz
            rw [hIH]
            rfl
      · -- array elements
        intro xs rest hne hsz
        cases xs with
        | nil => exact absurd rfl hne
        | cons x xs' =>
          cases xs' with
          | nil =>
            rw [renderElems_one, pe_succ]
            have hIH := (ih f (by omega)).1 x (']' :: rest) (by
              rw [sizeL_cons, sizeL_nil] at hsz; omega) (restOk_cons (by decide) rest)
            rw [hIH, normList_cons, normList_nil]
            rfl
          | cons y ys =>
            rw [renderElems_two, List.append_assoc, List.cons_append, pe_succ]
            have hposy : 1 ≤ sizeJ y := sizeJ_pos y
            have hszl : sizeL (y :: ys) < f := by
              rw [sizeL_cons] at hsz
              have := sizeJ_pos x
              omega
            have hszx : sizeJ x < f := by
              rw [sizeL_cons, sizeL_cons] at hsz
              omega
            have h1 := (ih f (by omega)).1 x (',' :: (renderElems (y :: ys) ++ ']' :: rest))
              hszx (restOk_cons (by decide) _)
            rw [h1]
            have h2 := (ih f (by omega)).2.1 (y :: ys) rest (by simp) hszl
            simp [h2, normList_cons]
      · -- object members
        intro ps rest hne hsz
        cases ps with
        | nil => exact absurd rfl hne
        | cons p ps' =>
          cases ps' with
          | nil =>
            rw [renderMembers_one]
            simp only [List.cons_append, List.append_assoc]
            rw [pm_succ, if_pos rfl, parseStringBody_escape p.1.data _]
            have hIH := (ih f (by omega)).1 p.2 ('}' :: rest) (by
              rw [sizeP_cons, sizeP_nil] at hsz; omega) (restOk_cons (by decide) rest)
            simp [hIH, mk_data_eq,
              show normPairs [p] = [(p.1, norm p.2)] from by rw [normPairs, normPairs]]
          | cons q qs =>
            rw [renderMembers_two]
            simp only [List.cons_append, List.append_assoc]
            rw [pm_succ, if_pos rfl, parseStringBody_escape p.1.data _]
            have hszv : sizeJ p.2 < f := by
              rw [sizeP_cons] at hsz
              omega
            have hszq : sizeP (q :: qs) < f := by
              rw [sizeP_cons] at hsz
              have := sizeJ_pos p.2
              omega
            have h1 := (ih f (by omega)).1 p.2
              (',' :: (renderMembers (q :: qs) ++ '}' :: rest)) hszv
              (restOk_cons (by decide) _)
            have h2 := (ih f (by omega)).2.2 (q :: qs) rest (by simp) hszq
            simp [h1, h2, mk_data_eq,
              show normPairs (p :: q :: qs) = (p.1, norm p.2) :: normPairs (q :: qs) from by
                rw [normPairs]]

end ATN
namespace ATN

theorem wfJv_arr (xs : List Jv) : wfJv (.arr xs) = wfList xs := by rw [wfJv]

theorem wfJv_obj (kvs : List (String × Jv)) :
    wfJv (.obj kvs) = (decide ((kvs.map Prod.fst).Nodup) && wfPairs kvs) := by rw [wfJv]

theorem wfList_nil : wfList [] = true := by rw [wfList]

theorem wfList_cons (x : Jv) (xs : List Jv) : wfList (x :: xs) = (wfJv x && wfList xs) := by
  rw [wfList]

theorem wfPairs_nil : wfPairs [] = true := by rw [wfPairs]

theorem wfPairs_cons (p : String × Jv) (ps : List (String × Jv)) :
    wfPairs (p :: ps) = (wfJv p.2 && wfPairs ps) := by rw [wfPairs]

theorem normPairs_nil : normPairs [] = [] := by rw [normPairs]

theorem normPairs_cons (p : String × Jv) (ps : List (String × Jv)) :
    normPairs (p :: ps) = (p.1, norm p.2) :: normPairs ps := by rw [normPairs]

mutual

theorem keyPerm_norm : ∀ (x : Jv), wfJv x = true → KeyPerm x (norm x)
  | .null, _ => by rw [norm_null]; exact .null
  | .bool b, _ => by rw [norm_bool]; exact .bool b
  | .num n, _ => by rw [norm_num]; exact .num n
  | .str s, _ => by rw [norm_str]; exact .str s
  | .arr xs, h => by
      rw [norm_arr]
      rw [wfJv_arr] at h
      exact .arr (keyPermList_norm xs h)
  | .obj kvs, h => by
      rw [norm_obj]
      rw [wfJv_obj] at h
      have hnd : (kvs.map Prod.fst).Nodup :=
        of_decide_eq_true ((Bool.and_eq_true _ _).mp h).1
      have hwp : wfPairs kvs = true := ((Bool.and_eq_true _ _).mp h).2
      refine KeyPerm.obj hnd (keyPermPairs_norm kvs hwp) ?_
      rw [normPairs_eq_map, normPairs_eq_map]
      exact ((sortPairs_perm kvs).map _).symm
termination_by x => sizeOf x

theorem keyPermList_norm : ∀ (xs : List Jv), wfList xs = true → KeyPermList xs (normList xs)
  | [], _ => by rw [normList_nil]; exact .nil
  | x :: xs, h => by
      rw [normList_cons]
      rw [wfList_cons] at h
      exact .cons (keyPerm_norm x ((Bool.and_eq_true _ _).mp h).1)
        (keyPermList_norm xs ((Bool.and_eq_true _ _).mp h).2)
termination_by xs => sizeOf xs

theorem keyPermPairs_norm : ∀ (ps : List (String × Jv)), wfPairs ps = true →
    KeyPermPairs ps (normPairs ps)
  | [], _ => by rw [normPairs_nil]; exact .nil
  | (k, v) :: ps, h => by
      rw [normPairs_cons]
      rw [wfPairs_cons] at h
      exact .cons (keyPerm_norm v ((Bool.and_eq_true _ _).mp h).1)
        (keyPermPairs_norm ps ((Bool.and_eq_true _ _).mp h).2)
termination_by ps => sizeOf ps

end

/-- C7. Round trip through the canonical form: for every well-formed
JSON value `x` (object keys duplicate-free, as JavaScript objects
guarantee), `parseCanonical (canonicalize x)` succeeds and yields
`norm x`, the key-sorted normal form of `x`, which is equal to `x` up
to object-key ordering (`KeyPerm x (norm x)`) — the sense in which
`JSON.parse` of a serialization is "equal" to the original, since
canonicalization deliberately reorders object keys. -/
theorem parseCanonical_canonicalize_roundtrip (x : Jv) (h : wfJv x = true) :
    parseCanonical (canonicalize x) = some (norm x) ∧ KeyPerm x (norm x) := by
  constructor
  · unfold parseCanonical canonicalize
    have hfuel : sizeJ x < (render x).length + 1 := by
      have := sizeJ_le_renderLen x
      omega
    have hp := (parse_render_all ((render x).length + 1)).1 x [] hfuel restOk_nil
    rw [List.append_nil] at hp
    rw [show (String.mk (render x)).length = (render x).length from rfl,
      show (String.mk (render x)).data = render x from rfl, hp]
  · exact keyPerm_norm x h

/-- C7 (witness). A concrete two-key object with unsorted keys parses
back from its canonical form to its key-sorted normal form, which is
`KeyPerm`-equal to the original. -/
theorem parseCanonical_canonicalize_roundtrip_witness :
    wfJv (Jv.obj [("b", Jv.num 2), ("a", Jv.num 1)]) = true ∧
    (parseCanonical (canonicalize (Jv.obj [("b", Jv.num 2), ("a", Jv.num 1)])) =
        some (norm (Jv.obj [("b", Jv.num 2), ("a", Jv.num 1)])) ∧
      KeyPerm (Jv.obj [("b", Jv.num 2), ("a", Jv.num 1)])
        (norm (Jv.obj [("b", Jv.num 2), ("a", Jv.num 1)]))) :=
  ⟨by simp [wfJv_obj, wfPairs_cons, wfPairs_nil, show ∀ i, wfJv (Jv.num i) = true from
      fun i => by rw [wfJv]],
   parseCanonical_canonicalize_roundtrip _ (by
    simp [wfJv_obj, wfPairs_cons, wfPairs_nil, show ∀ i, wfJv (Jv.num i) = true from
      fun i => by rw [wfJv]])⟩

end ATN
